import Mathlib

/-!
# Verification of the escnn group kernel (CyclicGroup / O2)

Shallow embedding of `src/escnn/group/groups/cyclicgroup.py` and
`src/escnn/group/groups/o2group.py`.  Python floats are modelled as exact
reals, numpy 2x2 arrays as `Matrix (Fin 2) (Fin 2) ℝ`, raised exceptions
(`assert` failures and `ValueError`) as `Except PyErr`.  Numeric-tolerance
comparisons of the source (`np.isclose`, `utils.cycle_isclose`) become exact
comparisons of reals.  Python's `%` on integers matches `Int.emod` and `//`
matches `Int.ediv` (Lean's `/` on `ℤ`) for the positive divisors used here.
-/

open Real Matrix

open scoped Classical

/-- Errors raised by the embedded Python code: a failed `assert` statement or
an explicit `raise ValueError`. -/
inductive PyErr
  | assertionError
  | valueError
deriving DecidableEq

/-- Python's `x % (2*pi)` on floats (numpy remainder with positive divisor):
the representative of `x` modulo `2π` lying in `[0, 2π)`. -/
noncomputable def mod2pi (x : ℝ) : ℝ := x - 2*π * ⌊x / (2*π)⌋

/-- Modelled from the spec: `escnn.group.utils.cycle_isclose` is used by the
source but its module is not under `src/`.  Per §4.1/§7 it tests that an angle
is "an exact multiple of the required step (within numeric tolerance)".  In
the exact-real embedding the tolerance is zero: `x - y` must be exactly an
integer multiple of the period `S`. -/
def cycleClose (x y S : ℝ) : Prop := ∃ k : ℤ, x - y = k * S

/-- numpy's `arctan2 y x` (note the argument order: `y` first). -/
noncomputable def atan2 (y x : ℝ) : ℝ :=
  if 0 < x then Real.arctan (y / x)
  else if x < 0 ∧ 0 ≤ y then Real.arctan (y / x) + π
  else if x < 0 then Real.arctan (y / x) - π
  else if 0 < y then π / 2
  else if y < 0 then -(π / 2)
  else 0

/-- The parametrizations supported by `CyclicGroup`
(source: `CyclicGroup.PARAMETRIZATIONS`, cyclicgroup.py lines 21-27). -/
inductive CnParam
  | pint
  | pradians
  | pMAT
deriving DecidableEq

/-- A Python value handled by `CyclicGroup._change_param`: an `int`, a
`float`, or a 2x2 numpy array. -/
inductive CnVal
  | vint (i : ℤ)
  | vfloat (x : ℝ)
  | vmat (M : Matrix (Fin 2) (Fin 2) ℝ)

/-- The `p_from == 'MAT'` block of `CyclicGroup._change_param`
(cyclicgroup.py lines 197-207): assert a 2x2 orthonormal matrix with
determinant 1, then decode the angle.  The source computes the sine
component as `(element[1, 0] - element[1, 0]) / 2.` (line 204), which is
embedded verbatim here. -/
noncomputable def cnMatToRadians (M : Matrix (Fin 2) (Fin 2) ℝ) : Except PyErr ℝ :=
  if M.det = 1 ∧ M * Mᵀ = 1 then
    Except.ok (atan2 ((M 1 0 - M 1 0) / 2) ((M 0 0 + M 1 1) / 2))
  else Except.error PyErr.assertionError

/-- The "convert to INT" block of `CyclicGroup._change_param`
(cyclicgroup.py lines 209-218).  `p_from = 'MAT'` has already been replaced
by `'radians'` at this point, so the `'MAT'` case is unreachable. -/
noncomputable def cnToInt (N : ℕ) (v : CnVal) (pf : CnParam) : Except PyErr ℤ :=
  match pf, v with
  | CnParam.pint, CnVal.vint i => Except.ok i
  | CnParam.pint, _ => Except.error PyErr.assertionError
  | CnParam.pradians, CnVal.vfloat x =>
      if cycleClose x 0 (2*π/(N:ℝ)) then
        Except.ok (round ((N:ℝ) * x / (2*π)) % (N:ℤ))
      else Except.error PyErr.valueError
  | CnParam.pradians, _ => Except.error PyErr.assertionError
  | CnParam.pMAT, _ => Except.error PyErr.valueError

/-- The "convert from INT" block of `CyclicGroup._change_param`
(cyclicgroup.py lines 220-234). -/
noncomputable def cnFromInt (N : ℕ) (e : ℤ) (pt : CnParam) : CnVal :=
  match pt with
  | CnParam.pint => CnVal.vint e
  | CnParam.pradians => CnVal.vfloat ((e:ℝ) * (2*π) / (N:ℝ))
  | CnParam.pMAT =>
      CnVal.vmat !![Real.cos ((e:ℝ) * (2*π) / (N:ℝ)), -Real.sin ((e:ℝ) * (2*π) / (N:ℝ));
                    Real.sin ((e:ℝ) * (2*π) / (N:ℝ)), Real.cos ((e:ℝ) * (2*π) / (N:ℝ))]

/-- `CyclicGroup._change_param` (cyclicgroup.py lines 193-234). -/
noncomputable def cnChangeParam (N : ℕ) (v : CnVal) (pf pt : CnParam) : Except PyErr CnVal :=
  match pf, v with
  | CnParam.pMAT, CnVal.vmat M =>
      (cnMatToRadians M).bind fun θ =>
        (cnToInt N (CnVal.vfloat θ) CnParam.pradians).map fun e => cnFromInt N e pt
  | CnParam.pMAT, _ => Except.error PyErr.assertionError
  | _, _ => (cnToInt N v pf).map fun e => cnFromInt N e pt

/-- `CyclicGroup._is_element` (cyclicgroup.py lines 177-183): convert to the
canonical `'int'` parametrization, then check the integer range.  The
conversion is NOT wrapped in any exception handler in the source, so a
conversion error propagates. -/
noncomputable def cnIsElement (N : ℕ) (v : CnVal) (p : CnParam) : Except PyErr Bool :=
  (cnChangeParam N v p CnParam.pint).map fun e =>
    match e with
    | CnVal.vint i => decide (0 ≤ i ∧ i < (N:ℤ))
    | _ => false

/-- `O2._change_param` with target `'radians'`, applied to a value `(flip,
rotation)`: the flip is passed through unchanged and the rotation is
normalized by `rotation % (2*np.pi)` into `[0, 2π)` (o2group.py line 247).
This is also the canonicalization performed by `O2.element`. -/
noncomputable def o2ElementR (e : ℕ × ℝ) : ℕ × ℝ := (e.1, mod2pi e.2)

/-- `O2._combine` (o2group.py lines 159-180): on canonical values,
`((a + b) % 2, α + (-1 if a else 1) * β)`, re-normalized through
`_change_param`. -/
noncomputable def o2Combine (e1 e2 : ℕ × ℝ) : ℕ × ℝ :=
  o2ElementR ((e1.1 + e2.1) % 2, e1.2 + (if e1.1 ≠ 0 then -1 else 1) * e2.2)

/-- `O2._inverse` (o2group.py lines 141-157): on canonical values,
`(j, -θ * (-1 if j else 1))`, re-normalized through `_change_param`. -/
noncomputable def o2Inverse (e : ℕ × ℝ) : ℕ × ℝ :=
  o2ElementR (e.1, -e.2 * (if e.1 ≠ 0 then -1 else 1))

/-- `O2.grid(N, type='regular')` (o2group.py lines 269-297): the `N` pure
rotations `(0, i·2π/N)` followed by the `N` reflected elements
`(1, i·2π/N)`, each mapped through `self.element` (canonicalization). -/
noncomputable def o2GridRegular (N : ℕ) : List (ℕ × ℝ) :=
  (((List.range N).map fun (i : ℕ) => ((0:ℕ), (i:ℝ) * (2*π) / (N:ℝ))) ++
   ((List.range N).map fun (i : ℕ) => ((1:ℕ), (i:ℝ) * (2*π) / (N:ℝ)))).map o2ElementR

/-- `CyclicGroup._combine` (cyclicgroup.py lines 126-153) on canonical
integer values: `(a + b) % N`. -/
def cnCombine (N : ℕ) (a b : ℤ) : ℤ := (a + b) % (N:ℤ)

/-- The `'radians'` value of the `CyclicGroup` element `a`:
`element * (2*np.pi) / self.N` (cyclicgroup.py line 224). -/
noncomputable def cnRadians (N : ℕ) (a : ℤ) : ℝ := (a:ℝ) * (2*π) / (N:ℝ)

/-- Modelled from the spec: `escnn.group.utils.psi` is used by the source
but its module is not under `src/`.  Per §4.3 it is the "standard
rotation-by-`kθ` matrix" used for the 2-dimensional irreps. -/
noncomputable def psi (θ : ℝ) (k : ℤ) : Matrix (Fin 2) (Fin 2) ℝ :=
  !![Real.cos ((k:ℝ)*θ), -Real.sin ((k:ℝ)*θ);
     Real.sin ((k:ℝ)*θ),  Real.cos ((k:ℝ)*θ)]

/-- Modelled from the spec: `escnn.group.utils.chi` (not under `src/`): the
reflection part of an O(2) irrep "flips a basis axis" (§4.3), i.e. it is
the identity for `s = 0` and `diag(1, -1)` for `s` truthy. -/
noncomputable def chi (s : ℕ) : Matrix (Fin 2) (Fin 2) ℝ :=
  if s ≠ 0 then !![1, 0; 0, -1] else 1

/-- Modelled from the spec: `escnn.group.utils.psichi` (not under `src/`):
the 2-dimensional O(2) irrep value, "a block rotation by `kθ` with a
reflection-dependent sign/swap (reflection ... flips a basis axis)"
(§4.3): `psi(θ, k) @ chi(s)`. -/
noncomputable def psichi (θ : ℝ) (s : ℕ) (k : ℤ) : Matrix (Fin 2) (Fin 2) ℝ :=
  psi θ k * chi s

/-- `_build_irrep_cn` in the `k = 0` branch (cyclicgroup.py lines 552-553):
the trivial representation `np.eye(1)`. -/
def cnIrrepTrivial (_a : ℤ) : Matrix (Fin 1) (Fin 1) ℝ := 1

/-- `_build_irrep_cn` in the 1-dimensional branch (`n` even, `k = n/2`,
cyclicgroup.py lines 557-559): `[[cos(k * element.to('radians'))]]`. -/
noncomputable def cnIrrep1 (N : ℕ) (k : ℤ) (a : ℤ) : Matrix (Fin 1) (Fin 1) ℝ :=
  !![Real.cos ((k:ℝ) * cnRadians N a)]

/-- `_build_irrep_cn` in the 2-dimensional branch (cyclicgroup.py lines
561-562): `utils.psi(element.to('radians'), k=k)`. -/
noncomputable def cnIrrep2 (N : ℕ) (k : ℤ) (a : ℤ) : Matrix (Fin 2) (Fin 2) ℝ :=
  psi (cnRadians N a) k

/-- `_build_irrep_o2` in the `j = 0, k = 0` branch (o2group.py line 736):
the trivial representation `np.eye(1)`. -/
def o2IrrepTrivial (_e : ℕ × ℝ) : Matrix (Fin 1) (Fin 1) ℝ := 1

/-- `_build_irrep_o2` in the `j = 1, k = 0` branch (o2group.py line 742):
`[[-1 if element.to('radians')[0] else 1]]`. -/
noncomputable def o2IrrepFlip (e : ℕ × ℝ) : Matrix (Fin 1) (Fin 1) ℝ :=
  !![if e.1 ≠ 0 then -1 else 1]

/-- `_build_irrep_o2` in the 2-dimensional branch `j = 1, k > 0`
(o2group.py lines 744-746): `utils.psichi(e[1], e[0], k=k)`. -/
noncomputable def o2Irrep2 (k : ℤ) (e : ℕ × ℝ) : Matrix (Fin 2) (Fin 2) ℝ :=
  psichi e.2 e.1 k

/-- `_build_parent_map` (cyclicgroup.py lines 585-589): the inclusion of
the `C_M` subgroup element `e` into `C_N` is
`G.element(e.to('int') * G.order() // order)`. -/
def cnParentMap (N M : ℕ) (e : ℤ) : ℤ := e * (N:ℤ) / (M:ℤ)

/-- `_build_child_map` (cyclicgroup.py lines 592-604): the partial
restriction of a `C_N` element to `C_M`: `None` unless the integer is a
multiple of `ratio = G.order() // sg.order()`. -/
def cnChildMap (N M : ℕ) (i : ℤ) : Option ℤ :=
  if i % ((N:ℤ) / (M:ℤ)) ≠ 0 then none else some (i / ((N:ℤ) / (M:ℤ)))

/-- `so2_to_o2` (o2group.py lines 795-803) applied to a `CyclicGroup(M)`
subgroup element `s`: `o2.element((0, e.to('radians')), 'radians')`. -/
noncomputable def cmToO2 (M : ℕ) (s : ℤ) : ℕ × ℝ := o2ElementR (0, cnRadians M s)

/-- `o2_to_so2` (o2group.py lines 777-792) with a `CyclicGroup(M)` child:
`None` for a reflection, otherwise `so2.element(rotation, 'radians')`, with
the `ValueError` of a rotation that is not a multiple of `2π/M` caught and
turned into `None`. -/
noncomputable def o2ToCm (M : ℕ) (e : ℕ × ℝ) : Option ℤ :=
  if e.1 = 0 then
    (if cycleClose e.2 0 (2*π/(M:ℝ)) then
      some (round ((M:ℝ) * e.2 / (2*π)) % (M:ℤ))
    else none)
  else none

/-- Modelled from the spec: `SO2.element` (the `SO2` group class is not
under `src/`): per §4.1, "O2 allows any real, normalized modulo 2π", and
SO(2) carries the same `'radians'` parametrization, so the element
constructor never fails and canonicalizes into `[0, 2π)`. -/
noncomputable def so2Element (θ : ℝ) : ℝ := mod2pi θ

/-- `o2_to_so2` (o2group.py lines 777-792) with the `SO2` child. -/
noncomputable def o2ToSo2 (e : ℕ × ℝ) : Option ℝ :=
  if e.1 = 0 then some (so2Element e.2) else none

/-- `so2_to_o2` (o2group.py lines 795-803) with an `SO2` element. -/
noncomputable def so2ToO2 (θ : ℝ) : ℕ × ℝ := o2ElementR (0, θ)

/-- `flip_to_o2` (o2group.py lines 827-839): the `C_2` element `0` maps to
`o2.identity = (0, 0.0)` and `1` to the reflection `(1, axis)`. -/
noncomputable def flipToO2 (axis : ℝ) (f : ℤ) : ℕ × ℝ :=
  if f = 0 then (0, 0) else o2ElementR (1, axis)

/-- `o2_to_flip` (o2group.py lines 809-824). -/
noncomputable def o2ToFlip (axis : ℝ) (e : ℕ × ℝ) : Option ℤ :=
  if e.1 = 0 ∧ cycleClose e.2 0 (2*π) then some 0
  else if e.1 = 1 ∧ cycleClose e.2 axis (2*π) then some 1
  else none

/-- Modelled from the spec: `DihedralGroup.element` (the dihedral group
class is not under `src/`): following the finite-group pattern of §3/§4.2
a `D_M` element is a pair (flip, rotation index) with the rotation index
canonical modulo `M`. -/
def dnElement (M : ℕ) (e : ℕ × ℤ) : ℕ × ℤ := (e.1, e.2 % (M:ℤ))

/-- `dn_to_o2` (o2group.py lines 861-870):
`o2.element((f, rot * 2π / rotation_order + f * axis))`. -/
noncomputable def dnToO2 (axis : ℝ) (M : ℕ) (e : ℕ × ℤ) : ℕ × ℝ :=
  o2ElementR (e.1, (e.2:ℝ) * (2*π) / (M:ℝ) + (e.1:ℝ) * axis)

/-- `o2_to_dn` (o2group.py lines 845-858): `None` unless `rot - f*axis` is
a multiple of `2π/M`, else
`dn.element((f, round((rot - f*axis) * M / (2π))))`. -/
noncomputable def o2ToDn (axis : ℝ) (M : ℕ) (e : ℕ × ℝ) : Option (ℕ × ℤ) :=
  if cycleClose (e.2 - (e.1:ℝ) * axis) 0 (2*π/(M:ℝ)) then
    some (dnElement M (e.1, round ((e.2 - (e.1:ℝ) * axis) * (M:ℝ) / (2*π))))
  else none

/-- Modelled from the spec: `build_adjoint_map` (from the groups `utils`
module, not under `src/`): the `(θ, -1)` subgroup of O(2) is a "conjugated
copy" (§4.4); the map adjoins by the fixed element: `g ↦ a · g · a⁻¹`. -/
noncomputable def adjointMap (a g : ℕ × ℝ) : ℕ × ℝ :=
  o2Combine (o2Combine a g) (o2Inverse a)

/-- Model of the Python per-instance registry `self._irreps` (a dict keyed
by irrep id): an association list with lookup. -/
def findIrrep {κ α : Type} [DecidableEq κ] (cache : List (κ × α)) (k : κ) : Option α :=
  match cache with
  | [] => none
  | (k0, o) :: rest => if k0 = k then some o else findIrrep rest k

/-- `CyclicGroup.irrep` (cyclicgroup.py lines 402-455), abstracted over the
irrep-object constructor `build` and the registry `self._irreps`: if the id
`(k,)` is not cached, `assert 0 <= k <= self.order() // 2`, build and store
the object; in all cases return `self._irreps[id]`.  The result is the pair
(updated registry, returned object), with a failed assert as
`Except.error`. -/
def cnIrrepMethod {α : Type} (N : ℕ) (build : ℤ → α)
    (cache : List (ℤ × α)) (k : ℤ) : List (ℤ × α) × Except PyErr α :=
  match findIrrep cache k with
  | some o => (cache, Except.ok o)
  | none =>
      if 0 ≤ k ∧ k ≤ (N:ℤ)/2 then
        ((k, build k) :: cache, Except.ok (build k))
      else (cache, Except.error PyErr.assertionError)

/-- `O2.irrep` (o2group.py lines 633-694), abstracted the same way:
`assert j in [0, 1]` and `assert k >= 0` up front; if the id `(j,k)` is not
cached, the combination `j = 0, k > 0` raises a `ValueError` before
anything is stored, otherwise the object is built and stored; in all cases
the cached object is returned. -/
def o2IrrepMethod {α : Type} (build : ℤ × ℤ → α)
    (cache : List ((ℤ × ℤ) × α)) (j k : ℤ) : List ((ℤ × ℤ) × α) × Except PyErr α :=
  if ¬(j = 0 ∨ j = 1) then (cache, Except.error PyErr.assertionError)
  else if ¬(0 ≤ k) then (cache, Except.error PyErr.assertionError)
  else
    match findIrrep cache (j, k) with
    | some o => (cache, Except.ok o)
    | none =>
        if j = 0 then
          (if k = 0 then (((j, k), build (j, k)) :: cache, Except.ok (build (j, k)))
           else (cache, Except.error PyErr.valueError))
        else (((j, k), build (j, k)) :: cache, Except.ok (build (j, k)))

/-- The size of the `CyclicGroup(N)` irrep of frequency `k`, as selected in
`CyclicGroup.irrep` (cyclicgroup.py lines 402-455): 1 for `k = 0`, 1 for
the Nyquist frequency `k = N/2` of an even-order group, 2 otherwise. -/
def cnSize (N : ℕ) (k : ℤ) : ℕ :=
  if k = 0 then 1 else if N % 2 = 0 ∧ k = ((N/2 : ℕ):ℤ) then 1 else 2

/-- `CyclicGroup._tensor_product_irreps` (cyclicgroup.py lines 512-538):
the decomposition `[(irrep id, multiplicity), ...]` of `ρ_J ⊗ ρ_l`.
`J + l <= self.N // 2` is Python integer floor division, `j < self.N / 2`
is real division (`2*j < N`). -/
def cnTensorProductIrreps (N : ℕ) (J l : ℤ) : List (ℤ × ℕ) :=
  if J = 0 ∨ l = 0 then [(l + J, 1)]
  else if N % 2 = 0 ∧ (J = ((N/2:ℕ):ℤ) ∨ l = ((N/2:ℕ):ℤ)) then
    [(if J + l ≤ ((N/2:ℕ):ℤ) then J + l else (N:ℤ) - J - l, 1)]
  else if l = J then
    [((0:ℤ), 2),
     (if J + l ≤ ((N/2:ℕ):ℤ) then J + l else (N:ℤ) - J - l,
      if 2 * (if J + l ≤ ((N/2:ℕ):ℤ) then J + l else (N:ℤ) - J - l) < (N:ℤ) then 1 else 2)]
  else
    [(|l - J|, 1),
     (if J + l ≤ ((N/2:ℕ):ℤ) then J + l else (N:ℤ) - J - l,
      if 2 * (if J + l ≤ ((N/2:ℕ):ℤ) then J + l else (N:ℤ) - J - l) < (N:ℤ) then 1 else 2)]

/-- The fixed 4x4 matrix of `CyclicGroup._clebsh_gordan_coeff`
(cyclicgroup.py lines 491-496), as its list of rows. -/
noncomputable def cgBase : List (List ℝ) :=
  [[1, 0, 1, 0], [0, 1, 0, 1], [0, -1, 0, 1], [1, 0, -1, 0]].map
    (fun r => r.map (fun x => x / Real.sqrt 2))

/-- Column `p` of the fixed 4x4 Clebsch-Gordan matrix. -/
noncomputable def cgCol (p : ℕ) : List ℝ := cgBase.map (fun r => r.getD p 0)

/-- `cg[:, 1] *= -1` on a two-column selection (cyclicgroup.py lines 486,
501, 506). -/
def negSecondCol (cols : List (List ℝ)) : List (List ℝ) :=
  match cols with
  | [a, b] => [a, b.map (fun x => -x)]
  | l => l

/-- The row permutation induced by
`cg.reshape(rho_n.size, rho_m.size, -1, rho_j.size).transpose(1, 0, 2, 3)`
(cyclicgroup.py line 510) on the reshaped coefficient matrix when both
operands are 2-dimensional: row `2*n_idx + m_idx` becomes row
`2*m_idx + n_idx`, i.e. the two middle entries of each column swap. -/
def swapMid (c : List ℝ) : List ℝ :=
  match c with
  | [a, b, cc, d] => [a, cc, b, d]
  | l => l

/-- Columns of the identity matrix `np.eye(d)`. -/
def eyeCols (d : ℕ) : List (List ℝ) :=
  (List.range d).map (fun i => (List.range d).map (fun r => if r = i then (1:ℝ) else 0))

/-- `CyclicGroup._clebsh_gordan_coeff(m, n, j)` (cyclicgroup.py lines
466-510), as the list of columns of the returned coefficient block
reshaped to a `size(ρ_m)·size(ρ_n) × multiplicity·size(ρ_j)` matrix (row
index `m_idx * size(ρ_n) + n_idx`).  A zero-width block
(`np.zeros((.., 0, ..))`) is the empty column list. -/
noncomputable def cnClebschGordanCols (N : ℕ) (m n j : ℤ) : List (List ℝ) :=
  if m = 0 ∨ n = 0 then
    (if j = m + n then eyeCols (cnSize N j) else [])
  else if N % 2 = 0 ∧ (m = ((N/2:ℕ):ℤ) ∨ n = ((N/2:ℕ):ℤ)) then
    (if j = m + n then eyeCols (cnSize N j)
     else if j = (N:ℤ) - m - n then
       (if 1 < cnSize N j then negSecondCol (eyeCols (cnSize N j))
        else eyeCols (cnSize N j))
     else [])
  else
    ((if j = m + n then [cgCol 2, cgCol 3]
      else if j = (N:ℤ) - m - n then negSecondCol [cgCol 2, cgCol 3]
      else if j = m - n then [cgCol 0, cgCol 1]
      else if j = n - m then negSecondCol [cgCol 0, cgCol 1]
      else []).map swapMid)

/-- The Clebsch-Gordan blocks for all irreps listed by
`_tensor_product_irreps(m, n)`, stacked into one matrix (as columns). -/
noncomputable def cnStackedCG (N : ℕ) (m n : ℤ) : List (List ℝ) :=
  ((cnTensorProductIrreps N m n).map (fun p => cnClebschGordanCols N m n p.1)).flatten

/-- Dot product of two columns. -/
def dotL (u v : List ℝ) : ℝ := (List.zipWith (fun a b => a * b) u v).sum

/-- `cols` is a square orthogonal matrix of side `d`, presented as its list
of columns: there are `d` columns of height `d`, each of unit norm, and
distinct columns are orthogonal. -/
def orthonormalCols (cols : List (List ℝ)) (d : ℕ) : Prop :=
  cols.length = d ∧ (∀ c ∈ cols, c.length = d) ∧
  (∀ c ∈ cols, dotL c c = 1) ∧
  List.Pairwise (fun c1 c2 => dotL c1 c2 = 0 ∧ dotL c2 c1 = 0) cols

/-- The size of the `O2` irrep `(j, k)`, as selected in `_build_irrep_o2`
(o2group.py lines 727-751): 1 for frequency `k = 0` (trivial or flip
irrep), 2 for positive frequency. -/
def o2Size (j k : ℤ) : ℕ := if k = 0 then 1 else 2

/-- `CyclicGroup._restrict_irrep` (cyclicgroup.py lines 324-366) for the
parent `C_N` irrep of frequency `k` restricted to the subgroup `C_M`:
`f = k % M`; if `f > M/2` (real division, i.e. `2f > M`) then `f` becomes
`M - f` and the change of basis is `[[1, 0], [0, -1]]`, otherwise it is
`np.eye(irr.size)` (written `1`); the id `(f,)` is appended once, and a
second time when the subgroup irrep is smaller than the parent irrep. -/
noncomputable def cnRestrictIrrep (N M : ℕ) (k : ℤ) :
    Matrix (Fin 2) (Fin 2) ℝ × List ℤ :=
  if 2 * (k % (M:ℤ)) > (M:ℤ) then
    (!![1, 0; 0, -1],
     [(M:ℤ) - k % (M:ℤ)] ++
       (if cnSize M ((M:ℤ) - k % (M:ℤ)) < cnSize N k then [(M:ℤ) - k % (M:ℤ)]
        else []))
  else
    (1,
     [k % (M:ℤ)] ++
       (if cnSize M (k % (M:ℤ)) < cnSize N k then [k % (M:ℤ)] else []))

/-- The direct sum of the listed `C_M` irreps evaluated at the subgroup
element `s`, in a fixed 2x2 container (the only shapes produced by the
restrictions under study are one 2-dimensional irrep or two 1-dimensional
ones).  The scalar value of a 1-dimensional `C_M` irrep of frequency `f`
is `cos(f * radians)` (cyclicgroup.py lines 552-559; for `f = 0` the
source builds `np.eye(1)`, whose value agrees with `cos(0) = 1`). -/
noncomputable def cnBlockDiag (M : ℕ) (ids : List ℤ) (s : ℤ) :
    Matrix (Fin 2) (Fin 2) ℝ :=
  match ids with
  | [f] => cnIrrep2 M f s
  | [f1, f2] => !![cnIrrep1 M f1 s 0 0, 0; 0, cnIrrep1 M f2 s 0 0]
  | _ => 1

/-- `O2._restrict_irrep` (o2group.py lines 460-470), branch
`id[0] is not None and id[1] == -1` (the adjoint/conjugated `O(2)`
subgroup): the irrep id is kept, and for a 2-dimensional irrep the change
of basis is `utils.psi(0.5 * id[0], f) @ np.eye(2)`. -/
noncomputable def o2RestrictAdj (axis : ℝ) (j k : ℤ) :
    Matrix (Fin 2) (Fin 2) ℝ × List (ℤ × ℤ) :=
  (if o2Size j k = 2 then psi (0.5 * axis) k else 1, [(j, k)])

/-- `O2._restrict_irrep` (o2group.py lines 472-476), branch
`id[0] is None and id[1] == -1` (the `SO(2)` subgroup): the irrep
frequency is kept, with identity change of basis. -/
noncomputable def o2RestrictSo2 (j k : ℤ) :
    Matrix (Fin 2) (Fin 2) ℝ × List ℤ :=
  (1, [k])

/-- Modelled from the spec: the `SO2` irrep of frequency `k` (the `SO2`
group class is not under `src/`): per the general pattern of §4.3, the
2-dimensional irrep of frequency `k` is the rotation `psi(θ, k)`. -/
noncomputable def so2Irrep (k : ℤ) (θ : ℝ) : Matrix (Fin 2) (Fin 2) ℝ :=
  psi θ k

/-- `O2._restrict_irrep` (o2group.py lines 478-485), branch
`id[0] is not None and id[1] == 1` (the `C_2` subgroup generated by the
flip along `axis`): a 1-dimensional irrep keeps its flip frequency `j`
with identity change of basis; a 2-dimensional irrep restricts to the
trivial irrep `(0,)` followed by `(j,)`, with change of basis
`utils.psi(0.5 * id[0], k)`. -/
noncomputable def o2RestrictFlip (axis : ℝ) (j k : ℤ) :
    Matrix (Fin 2) (Fin 2) ℝ × List ℤ :=
  if 1 < o2Size j k then (psi (0.5 * axis) k, [0, j]) else (1, [j])

/-- `O2._restrict_irrep` (o2group.py lines 486-496), branch
`id[0] is None and id[1] > 0` (the cyclic subgroup `C_M`): fold
`f = k % M` to `M - f` when `f > M/2`, with change of basis
`utils.chi(1)`; the id `(f,)` is appended once, preceded by an extra copy
when the subgroup irrep is smaller than the parent irrep. -/
noncomputable def o2RestrictCyclic (M : ℕ) (j k : ℤ) :
    Matrix (Fin 2) (Fin 2) ℝ × List ℤ :=
  if 2 * (k % (M:ℤ)) > (M:ℤ) then
    (chi 1,
     (if cnSize M ((M:ℤ) - k % (M:ℤ)) < o2Size j k then [(M:ℤ) - k % (M:ℤ)]
      else []) ++ [(M:ℤ) - k % (M:ℤ)])
  else
    (1,
     (if cnSize M (k % (M:ℤ)) < o2Size j k then [k % (M:ℤ)] else []) ++
       [k % (M:ℤ)])

/-- Modelled from the spec: the size of the `DihedralGroup(M)` irrep
`(j, k)` (the dihedral group class is not under `src/`): following the
finite-group pattern of §4.2-§4.3, frequency `k = 0` and the Nyquist
frequency `k = M/2` of an even `M` give 1-dimensional irreps, every other
frequency a 2-dimensional one — the same rule as for `C_M`. -/
def dnSize (M : ℕ) (k : ℤ) : ℕ := cnSize M k

/-- `O2._restrict_irrep` (o2group.py lines 498-517), branch
`id[0] is not None and id[1] > 1` (the dihedral subgroup `D_M` with flip
axis `axis`): fold `k' = k % M` to `M - k'` when `k' > M/2` with change of
basis `[[1, 0], [0, -1]]`; append `(0, k')` when the subgroup irrep
`(j, k')` is smaller than the parent irrep, then `(j, k')`; finally a
2-dimensional parent irrep left-multiplies the change of basis by
`utils.psi(0.5 * id[0], f)` with `f` the parent frequency. -/
noncomputable def o2RestrictDihedral (axis : ℝ) (M : ℕ) (j k : ℤ) :
    Matrix (Fin 2) (Fin 2) ℝ × List (ℤ × ℤ) :=
  if 2 * (k % (M:ℤ)) > (M:ℤ) then
    ((if o2Size j k = 2 then psi (0.5 * axis) k * !![1, 0; 0, -1]
      else !![1, 0; 0, -1]),
     (if dnSize M ((M:ℤ) - k % (M:ℤ)) < o2Size j k then
        [((0:ℤ), (M:ℤ) - k % (M:ℤ))] else []) ++ [(j, (M:ℤ) - k % (M:ℤ))])
  else
    ((if o2Size j k = 2 then psi (0.5 * axis) k * 1 else 1),
     (if dnSize M (k % (M:ℤ)) < o2Size j k then [((0:ℤ), k % (M:ℤ))]
      else []) ++ [(j, k % (M:ℤ))])

/-- Modelled from the spec: the scalar value of a 1-dimensional
`DihedralGroup(M)` irrep `(j, k)` (with `k ∈ {0, M/2}`) at the element
`(flip, rotation index)`: following the pattern of §4.2-§4.3,
`cos(k * θ_rot)` times `-1` when both the flip frequency and the flip bit
are set. -/
noncomputable def dnIrrep1 (M : ℕ) (p : ℤ × ℤ) (e : ℕ × ℤ) : ℝ :=
  Real.cos ((p.2:ℝ) * cnRadians M e.2) * (if p.1 ≠ 0 ∧ e.1 ≠ 0 then -1 else 1)

/-- Modelled from the spec: the 2-dimensional `DihedralGroup(M)` irrep of
frequency `k` at the element `(flip, rotation index)`: per the §4.3
pattern, `utils.psichi` of the rotation angle and the flip bit. -/
noncomputable def dnIrrep2 (M : ℕ) (k : ℤ) (e : ℕ × ℤ) :
    Matrix (Fin 2) (Fin 2) ℝ :=
  psichi (cnRadians M e.2) e.1 k

/-- The direct sum of the listed `D_M` irreps evaluated at the subgroup
element `e`, in a fixed 2x2 container (as in `cnBlockDiag`, the only
shapes arising here are one 2-dimensional irrep or two 1-dimensional
ones). -/
noncomputable def dnBlockDiag (M : ℕ) (ids : List (ℤ × ℤ)) (e : ℕ × ℤ) :
    Matrix (Fin 2) (Fin 2) ℝ :=
  match ids with
  | [p] => dnIrrep2 M p.2 e
  | [p1, p2] => !![dnIrrep1 M p1 e, 0; 0, dnIrrep1 M p2 e]
  | _ => 1

/-- The plane rotation by the angle `a`; `psi θ k` is `psiR (k * θ)`. -/
noncomputable def psiR (a : ℝ) : Matrix (Fin 2) (Fin 2) ℝ :=
  !![Real.cos a, -Real.sin a; Real.sin a, Real.cos a]

-- ===================================================================
-- Theorems
-- ===================================================================

theorem mat2_ext {a b c d e f g h : ℝ} (h1 : a = e) (h2 : b = f) (h3 : c = g)
    (h4 : d = h) : (!![a, b; c, d] : Matrix (Fin 2) (Fin 2) ℝ) = !![e, f; g, h] := by
  rw [h1, h2, h3, h4]

theorem cos_int_pi (n : ℤ) : Real.cos ((n:ℝ) * π) = (-1:ℝ)^n := by
  simpa using Real.cos_int_mul_pi_sub 0 n

theorem psi_mul (θ₁ θ₂ : ℝ) (k : ℤ) : psi θ₁ k * psi θ₂ k = psi (θ₁ + θ₂) k := by
  rw [psi, psi, psi, Matrix.mul_fin_two]
  have hadd : (k:ℝ) * (θ₁ + θ₂) = (k:ℝ)*θ₁ + (k:ℝ)*θ₂ := by ring
  apply mat2_ext <;> rw [hadd] <;> simp only [Real.cos_add, Real.sin_add] <;> ring

theorem psi_mod2pi (θ : ℝ) (k : ℤ) : psi (mod2pi θ) k = psi θ k := by
  have hc : (k:ℝ) * mod2pi θ = (k:ℝ)*θ + ((-(k * ⌊θ / (2*π)⌋) : ℤ):ℝ) * (2*π) := by
    rw [mod2pi]; push_cast; ring
  rw [psi, psi]
  apply mat2_ext <;> rw [hc] <;>
    simp only [Real.cos_add_int_mul_two_pi, Real.sin_add_int_mul_two_pi]

theorem psi_add_int_mul_two_pi (θ : ℝ) (n : ℤ) (k : ℤ) :
    psi (θ + (n:ℝ) * (2*π)) k = psi θ k := by
  have hc : (k:ℝ) * (θ + (n:ℝ) * (2*π)) = (k:ℝ)*θ + ((k * n : ℤ):ℝ) * (2*π) := by
    push_cast; ring
  rw [psi, psi]
  apply mat2_ext <;> rw [hc] <;>
    simp only [Real.cos_add_int_mul_two_pi, Real.sin_add_int_mul_two_pi]

theorem chi_zero : chi 0 = 1 := by simp [chi]

theorem chi_one : chi 1 = !![1, 0; 0, -1] := by simp [chi]

theorem chi_mul (a b : ℕ) (ha : a < 2) (hb : b < 2) :
    chi a * chi b = chi ((a + b) % 2) := by
  interval_cases a <;> interval_cases b <;>
    simp [chi, Matrix.mul_fin_two, Matrix.one_fin_two]


theorem mod2pi_eq_self {x : ℝ} (h0 : 0 ≤ x) (h1 : x < 2*π) : mod2pi x = x := by
  have hpi : (0:ℝ) < 2*π := by positivity
  have hfl : ⌊x / (2*π)⌋ = 0 := by
    rw [Int.floor_eq_zero_iff]
    constructor
    · positivity
    · rw [div_lt_one hpi]
      exact h1
  simp [mod2pi, hfl]

theorem mod2pi_zero : mod2pi 0 = 0 :=
  mod2pi_eq_self le_rfl (by positivity)

theorem pi_div_four_not_step4 : ¬ cycleClose (π/4) 0 (2*π/((4:ℕ):ℝ)) := by
  rintro ⟨k, hk⟩
  have hπ : π ≠ 0 := Real.pi_ne_zero
  have h1 : (1:ℝ) = 2 * k := by
    have h2 : π * 1 = π * (2 * k) := by push_cast at hk; field_simp at hk; linarith
    exact mul_left_cancel₀ hπ h2
  have h2 : (1:ℤ) = 2 * k := by exact_mod_cast h1
  omega

theorem cn_int_to_mat_4_1 :
    cnChangeParam 4 (CnVal.vint 1) CnParam.pint CnParam.pMAT =
      Except.ok (CnVal.vmat !![0, -1; 1, 0]) := by
  have hθ : ((1:ℤ):ℝ) * (2*π) / ((4:ℕ):ℝ) = π/2 := by push_cast; ring
  have hred : cnChangeParam 4 (CnVal.vint 1) CnParam.pint CnParam.pMAT =
      (cnToInt 4 (CnVal.vint 1) CnParam.pint).map (fun e => cnFromInt 4 e CnParam.pMAT) := rfl
  rw [hred]
  simp only [cnToInt, Except.map, cnFromInt, hθ, Real.cos_pi_div_two, Real.sin_pi_div_two,
    neg_zero]

theorem cn_mat_to_int_4 :
    cnChangeParam 4 (CnVal.vmat !![0, -1; 1, 0]) CnParam.pMAT CnParam.pint =
      Except.ok (CnVal.vint 0) := by
  have hdet : (!![0, -1; 1, 0] : Matrix (Fin 2) (Fin 2) ℝ).det = 1 := by
    simp [Matrix.det_fin_two_of]
  have horth : (!![0, -1; 1, 0] : Matrix (Fin 2) (Fin 2) ℝ) *
      (!![0, -1; 1, 0] : Matrix (Fin 2) (Fin 2) ℝ)ᵀ = 1 := by
    rw [show (!![0, -1; 1, 0] : Matrix (Fin 2) (Fin 2) ℝ)ᵀ = !![0, 1; -1, 0] by
      ext i j; fin_cases i <;> fin_cases j <;> simp [Matrix.transpose_apply]]
    rw [Matrix.mul_fin_two]
    norm_num
    exact Matrix.one_fin_two.symm
  have hred : cnChangeParam 4 (CnVal.vmat !![0, -1; 1, 0]) CnParam.pMAT CnParam.pint =
      (cnMatToRadians !![0, -1; 1, 0]).bind fun θ =>
        (cnToInt 4 (CnVal.vfloat θ) CnParam.pradians).map fun e =>
          cnFromInt 4 e CnParam.pint := rfl
  rw [hred, cnMatToRadians, if_pos ⟨hdet, horth⟩]
  have hy : ((!![0, -1; 1, 0] : Matrix (Fin 2) (Fin 2) ℝ) 1 0 -
      (!![0, -1; 1, 0] : Matrix (Fin 2) (Fin 2) ℝ) 1 0) / 2 = 0 := by norm_num
  have hx : ((!![0, -1; 1, 0] : Matrix (Fin 2) (Fin 2) ℝ) 0 0 +
      (!![0, -1; 1, 0] : Matrix (Fin 2) (Fin 2) ℝ) 1 1) / 2 = 0 := by norm_num
  rw [hy, hx]
  have hat : atan2 0 0 = 0 := by norm_num [atan2]
  rw [hat]
  have h2 : (Except.ok (0:ℝ)).bind (fun θ => (cnToInt 4 (CnVal.vfloat θ) CnParam.pradians).map
        fun e => cnFromInt 4 e CnParam.pint) =
      (if cycleClose 0 0 (2*π/((4:ℕ):ℝ)) then
        Except.ok (round (((4:ℕ):ℝ) * 0 / (2*π)) % ((4:ℕ):ℤ))
      else Except.error PyErr.valueError).map (fun e => cnFromInt 4 e CnParam.pint) := rfl
  rw [h2]
  have hc : cycleClose 0 0 (2*π/((4:ℕ):ℝ)) := ⟨0, by norm_num⟩
  rw [if_pos hc]
  have hr : round (((4:ℕ):ℝ) * 0 / (2*π)) % ((4:ℕ):ℤ) = 0 := by norm_num
  rw [hr]
  rfl

/-- Claim C1: the `'int' → 'MAT' → 'int'` parametrization round trip of
`CyclicGroup` fails in the code: for `CyclicGroup(4)` and element `1`, the
matrix decoder computes the sine component as
`(element[1,0] - element[1,0])/2 = 0` (cyclicgroup.py line 204), so the
round trip returns `0` instead of `1`. -/
theorem c1_matrix_roundtrip_eval :
    (cnChangeParam 4 (CnVal.vint 1) CnParam.pint CnParam.pMAT).bind
      (fun v => cnChangeParam 4 v CnParam.pMAT CnParam.pint) =
      Except.ok (CnVal.vint 0) ∧ (0:ℤ) ≠ 1 := by
  refine ⟨?_, by norm_num⟩
  rw [cn_int_to_mat_4_1]
  show cnChangeParam 4 (CnVal.vmat !![0, -1; 1, 0]) CnParam.pMAT CnParam.pint = _
  exact cn_mat_to_int_4

/-- Claim C2 (counterexample): `CyclicGroup(4)._is_element(π/4, 'radians')`
does not return a boolean; the `ValueError` raised inside `_change_param`
escapes to the caller because `_is_element` performs no exception handling. -/
theorem c2_counterexample :
    cnIsElement 4 (CnVal.vfloat (π/4)) CnParam.pradians =
      Except.error PyErr.valueError := by
  have hred : cnIsElement 4 (CnVal.vfloat (π/4)) CnParam.pradians =
      ((if cycleClose (π/4) 0 (2*π/((4:ℕ):ℝ)) then
          Except.ok (round (((4:ℕ):ℝ) * (π/4) / (2*π)) % ((4:ℕ):ℤ))
        else Except.error PyErr.valueError).map (fun e => cnFromInt 4 e CnParam.pint)).map
        (fun e => match e with
          | CnVal.vint i => decide (0 ≤ i ∧ i < ((4:ℕ):ℤ))
          | _ => false) := rfl
  rw [hred, if_neg pi_div_four_not_step4]
  rfl

/-- Claim C2 (amended): `_is_element` returns a boolean (true exactly for
canonical integers in `[0, N)`) whenever the input value converts: always
for an `int` value under the `'int'` parametrization, and for any exact
multiple of `2π/N` under `'radians'`.  But a radians value that is not a
multiple of `2π/N` makes `_is_element` raise a `ValueError` rather than
return `false`. -/
theorem c2_is_element_amended :
    (∀ (N : ℕ) (i : ℤ), cnIsElement N (CnVal.vint i) CnParam.pint =
        Except.ok (decide (0 ≤ i ∧ i < (N:ℤ)))) ∧
    (∀ (N : ℕ) (k : ℤ), 0 < N →
        cnIsElement N (CnVal.vfloat ((k:ℝ) * (2*π) / (N:ℝ))) CnParam.pradians =
          Except.ok true) ∧
    (∀ (N : ℕ) (x : ℝ), ¬ cycleClose x 0 (2*π/(N:ℝ)) →
        cnIsElement N (CnVal.vfloat x) CnParam.pradians =
          Except.error PyErr.valueError) := by
  refine ⟨fun N i => rfl, fun N k hN => ?_, fun N x hx => ?_⟩
  · have hNR : ((N:ℝ)) ≠ 0 := Nat.cast_ne_zero.mpr hN.ne'
    have hred : cnIsElement N (CnVal.vfloat ((k:ℝ) * (2*π) / (N:ℝ))) CnParam.pradians =
        ((if cycleClose ((k:ℝ) * (2*π) / (N:ℝ)) 0 (2*π/(N:ℝ)) then
            Except.ok (round ((N:ℝ) * ((k:ℝ) * (2*π) / (N:ℝ)) / (2*π)) % (N:ℤ))
          else Except.error PyErr.valueError).map (fun e => cnFromInt N e CnParam.pint)).map
          (fun e => match e with
            | CnVal.vint i => decide (0 ≤ i ∧ i < (N:ℤ))
            | _ => false) := rfl
    have hc : cycleClose ((k:ℝ) * (2*π) / (N:ℝ)) 0 (2*π/(N:ℝ)) := ⟨k, by field_simp⟩
    rw [hred, if_pos hc]
    have harg : (N:ℝ) * ((k:ℝ) * (2*π) / (N:ℝ)) / (2*π) = ((k:ℤ):ℝ) := by
      field_simp
    rw [harg, round_intCast]
    have hmod : decide (0 ≤ k % (N:ℤ) ∧ k % (N:ℤ) < (N:ℤ)) = true := by
      rw [decide_eq_true_eq]
      exact ⟨Int.emod_nonneg k (by exact_mod_cast hN.ne'),
             Int.emod_lt_of_pos k (by exact_mod_cast hN)⟩
    show Except.ok (decide _) = Except.ok true
    rw [hmod]
  · have hred : cnIsElement N (CnVal.vfloat x) CnParam.pradians =
        ((if cycleClose x 0 (2*π/(N:ℝ)) then
            Except.ok (round ((N:ℝ) * x / (2*π)) % (N:ℤ))
          else Except.error PyErr.valueError).map (fun e => cnFromInt N e CnParam.pint)).map
          (fun e => match e with
            | CnVal.vint i => decide (0 ≤ i ∧ i < (N:ℤ))
            | _ => false) := rfl
    rw [hred, if_neg hx]
    rfl

/-- Witness for the amended C2 theorem at a concrete input. -/
theorem c2_witness :
    cnIsElement 4 (CnVal.vfloat ((3:ℤ) * (2*π) / ((4:ℕ):ℝ))) CnParam.pradians =
      Except.ok true :=
  c2_is_element_amended.2.1 4 3 (by norm_num)

/-- Claim C7: on canonical O(2) values the group law is the semidirect
product: `combine((a,α),(b,β)) = (a xor b, α + (-1)^a·β)` up to angle
normalization modulo `2π` (here: exactly, with the angle normalized into
`[0,2π)` by `mod2pi`); `inverse((j,θ))` is `(j, -θ)` for `j = 0` and
`(j, θ)` for `j = 1` (again with the angle normalized); and the reflection
`(1, 0.0)` combined with itself is the identity `(0, 0.0)`. -/
theorem c7_o2_group_law :
    (∀ (a b : ℕ) (α β : ℝ), a < 2 → b < 2 →
        o2Combine (a, α) (b, β) = (a ^^^ b, mod2pi (α + (-1:ℝ)^a * β))) ∧
    (∀ θ : ℝ, o2Inverse (0, θ) = (0, mod2pi (-θ))) ∧
    (∀ θ : ℝ, o2Inverse (1, θ) = (1, mod2pi θ)) ∧
    o2Combine (1, 0) (1, 0) = (0, 0) := by
  refine ⟨fun a b α β ha hb => ?_, fun θ => ?_, fun θ => ?_, ?_⟩
  · unfold o2Combine o2ElementR
    interval_cases a <;> interval_cases b <;> norm_num
  · unfold o2Inverse o2ElementR
    norm_num
  · unfold o2Inverse o2ElementR
    norm_num
  · unfold o2Combine o2ElementR
    norm_num [mod2pi_zero]

/-- Witness for C7 at concrete inputs. -/
theorem c7_witness :
    o2Combine (1, π) (0, π) = (1 ^^^ 0, mod2pi (π + (-1:ℝ)^1 * π)) :=
  c7_o2_group_law.1 1 0 π π (by norm_num) (by norm_num)

/-- Claim C10: `O2.grid(N, 'regular')` (count first, type second) returns
`2·N` elements, not `N`: first the `N` pure rotations `(0, 2πi/N)` for
`i = 0..N-1` in increasing order of `i`, then the `N` reflected elements
`(1, 2πi/N)` in the same order. -/
theorem c10_o2_grid (N : ℕ) (hN : 0 < N) :
    (o2GridRegular N).length = 2 * N ∧
    (∀ i, i < N →
      (o2GridRegular N)[i]? = some ((0:ℕ), (i:ℝ) * (2*π) / (N:ℝ)) ∧
      (o2GridRegular N)[N + i]? = some ((1:ℕ), (i:ℝ) * (2*π) / (N:ℝ))) := by
  have hval : ∀ i : ℕ, i < N → mod2pi ((i:ℝ) * (2*π) / (N:ℝ)) = (i:ℝ) * (2*π) / (N:ℝ) := by
    intro i hi
    have hNR : (0:ℝ) < (N:ℝ) := by exact_mod_cast hN
    have hiN : (i:ℝ) < (N:ℝ) := by exact_mod_cast hi
    apply mod2pi_eq_self
    · positivity
    · rw [div_lt_iff₀ hNR]
      have hpi : (0:ℝ) < 2*π := by positivity
      calc (i:ℝ) * (2*π) < (N:ℝ) * (2*π) := by
            apply mul_lt_mul_of_pos_right hiN hpi
        _ = 2*π * (N:ℝ) := by ring
  have hlen1 : ((List.range N).map fun (i : ℕ) => ((0:ℕ), (i:ℝ) * (2*π) / (N:ℝ))).length = N := by
    rw [List.length_map, List.length_range]
  have hrange : ∀ i, i < N → (List.range N)[i]? = some i := by
    intro i hi
    simp [hi]
  constructor
  · simp only [o2GridRegular, List.length_map, List.length_append, List.length_range]
    omega
  · intro i hi
    constructor
    · rw [o2GridRegular, List.getElem?_map,
        List.getElem?_append_left (by rw [hlen1]; exact hi), List.getElem?_map, hrange i hi]
      simp [o2ElementR, hval i hi]
    · rw [o2GridRegular, List.getElem?_map,
        List.getElem?_append_right (by rw [hlen1]; exact Nat.le_add_right N i)]
      rw [hlen1, Nat.add_sub_cancel_left, List.getElem?_map, hrange i hi]
      simp [o2ElementR, hval i hi]

/-- Witness for C10 at `N = 2`. -/
theorem c10_witness : (o2GridRegular 2).length = 2 * 2 :=
  (c10_o2_grid 2 (by norm_num)).1

theorem mat1_mul (x y : ℝ) :
    (!![x] : Matrix (Fin 1) (Fin 1) ℝ) * !![y] = !![x*y] := by
  ext i j
  fin_cases i <;> fin_cases j <;> simp [Matrix.mul_apply]

theorem neg_one_zpow_emod (m : ℤ) : (-1:ℝ)^m = (-1)^(m % 2) := by
  conv_lhs => rw [← Int.ediv_add_emod m 2]
  rw [zpow_add₀ (by norm_num : (-1:ℝ) ≠ 0)]
  rw [Even.neg_one_zpow ⟨m/2, by ring⟩, one_mul]

theorem chi_one_psi (θ : ℝ) (k : ℤ) : chi 1 * psi θ k = psi (-θ) k * chi 1 := by
  rw [chi_one, psi, psi, Matrix.mul_fin_two, Matrix.mul_fin_two]
  apply mat2_ext <;> simp [mul_neg, Real.cos_neg, Real.sin_neg] <;> ring

/-- Claim C5: every built irrep of `CyclicGroup(N)` and `O2` is a group
homomorphism: the matrix at `combine(g, h)` equals the matrix product of the
matrices at `g` and at `h` (exactly, hence within the `1e-6` tolerance of
the claim), covering every branch of `_build_irrep_cn` (trivial, 1-dim
Nyquist `k = N/2`, 2-dim) and `_build_irrep_o2` (trivial `(0,0)`, sign
`(1,0)`, 2-dim `(1,k)`), with canonical reflection bits in `{0,1}`. -/
theorem c5_irrep_homomorphism :
    (∀ (N : ℕ) (a b : ℤ),
        cnIrrepTrivial (cnCombine N a b) = cnIrrepTrivial a * cnIrrepTrivial b) ∧
    (∀ (N : ℕ) (k a b : ℤ), (N:ℤ) = 2*k →
        cnIrrep1 N k (cnCombine N a b) = cnIrrep1 N k a * cnIrrep1 N k b) ∧
    (∀ (N : ℕ) (k : ℤ) (a b : ℤ), 0 < N →
        cnIrrep2 N k (cnCombine N a b) = cnIrrep2 N k a * cnIrrep2 N k b) ∧
    (∀ (g h : ℕ × ℝ),
        o2IrrepTrivial (o2Combine g h) = o2IrrepTrivial g * o2IrrepTrivial h) ∧
    (∀ (g h : ℕ × ℝ), g.1 < 2 → h.1 < 2 →
        o2IrrepFlip (o2Combine g h) = o2IrrepFlip g * o2IrrepFlip h) ∧
    (∀ (k : ℤ) (g h : ℕ × ℝ), g.1 < 2 → h.1 < 2 →
        o2Irrep2 k (o2Combine g h) = o2Irrep2 k g * o2Irrep2 k h) := by
  have hchi0 : chi 0 = 1 := chi_zero
  refine ⟨?_, ?_, ?_, ?_, ?_, ?_⟩
  · intro N a b
    simp [cnIrrepTrivial]
  · intro N k a b hN
    rcases Nat.eq_zero_or_pos N with hN0 | hNpos
    · have hk : k = 0 := by omega
      subst hk
      subst hN0
      simp [cnIrrep1, mat1_mul]
    · have hNne : ((N:ℕ):ℝ) ≠ 0 := Nat.cast_ne_zero.mpr hNpos.ne'
      have hang : ∀ m : ℤ, (k:ℝ) * cnRadians N m = (m:ℝ) * π := by
        intro m
        rw [cnRadians, show ((N:ℕ):ℝ) = 2*(k:ℝ) from by exact_mod_cast hN]
        have hkne : (k:ℝ) ≠ 0 := by
          have hkz : k ≠ 0 := by omega
          exact_mod_cast hkz
        field_simp
        ring
      rw [cnIrrep1, cnIrrep1, cnIrrep1, mat1_mul]
      rw [show cnCombine N a b = (a + b) % (N:ℤ) from rfl]
      rw [hang, hang, hang, cos_int_pi, cos_int_pi, cos_int_pi]
      rw [neg_one_zpow_emod ((a+b) % (N:ℤ)), hN,
        Int.emod_emod_of_dvd (a+b) ⟨k, rfl⟩, ← neg_one_zpow_emod (a+b),
        zpow_add₀ (by norm_num : (-1:ℝ) ≠ 0)]
  · intro N k a b hN
    have hNne : ((N:ℕ):ℝ) ≠ 0 := Nat.cast_ne_zero.mpr hN.ne'
    rw [cnIrrep2, cnIrrep2, cnIrrep2, psi_mul]
    rw [show cnCombine N a b = (a + b) % (N:ℤ) from rfl]
    have hq : cnRadians N ((a+b) % (N:ℤ)) =
        (cnRadians N a + cnRadians N b) + ((-((a+b)/(N:ℤ)) : ℤ):ℝ) * (2*π) := by
      rw [cnRadians, cnRadians, cnRadians, Int.emod_def]
      push_cast
      field_simp
      ring
    rw [hq, psi_add_int_mul_two_pi]
  · intro g h
    simp [o2IrrepTrivial]
  · intro g h hg hh
    obtain ⟨a, α⟩ := g
    obtain ⟨b, β⟩ := h
    simp only at hg hh
    unfold o2IrrepFlip o2Combine o2ElementR
    interval_cases a <;> interval_cases b <;>
      simp [mat1_mul]
  · intro k g h hg hh
    obtain ⟨a, α⟩ := g
    obtain ⟨b, β⟩ := h
    simp only at hg hh
    have heval : ∀ (f : ℕ) (θ : ℝ), o2Irrep2 k (f, θ) = psi θ k * chi f := fun f θ => rfl
    have hcomb : o2Combine (a, α) (b, β) =
        ((a + b) % 2, mod2pi (α + (if a ≠ 0 then -1 else 1) * β)) := rfl
    rw [hcomb, heval, heval, heval, psi_mod2pi]
    interval_cases a
    · have hb : (0 + b) % 2 = b := by omega
      rw [hb, if_neg (by norm_num : ¬ (0:ℕ) ≠ 0), one_mul]
      rw [hchi0, mul_one, ← mul_assoc, psi_mul]
    · rw [if_pos (by norm_num : (1:ℕ) ≠ 0)]
      rw [show α + (-1) * β = α + -β by ring]
      rw [mul_assoc (psi α k), ← mul_assoc (chi 1), chi_one_psi, mul_assoc,
        chi_mul 1 b (by norm_num) hh, ← mul_assoc, psi_mul]

/-- Witness for C5 at concrete inputs (the 2-dimensional `C_4` irrep of
frequency 1 and the 2-dimensional O(2) irrep of frequency 1). -/
theorem c5_witness :
    cnIrrep2 4 1 (cnCombine 4 1 2) = cnIrrep2 4 1 1 * cnIrrep2 4 1 2 ∧
    o2Irrep2 1 (o2Combine (1, π) (0, π)) = o2Irrep2 1 (1, π) * o2Irrep2 1 (0, π) :=
  ⟨c5_irrep_homomorphism.2.2.1 4 1 1 2 (by norm_num),
   c5_irrep_homomorphism.2.2.2.2.2 1 (1, π) (0, π) (by norm_num) (by norm_num)⟩

theorem mod2pi_sub_self (x : ℝ) : ∃ n : ℤ, mod2pi x - x = (n:ℝ) * (2*π) :=
  ⟨-⌊x / (2*π)⌋, by rw [mod2pi]; push_cast; ring⟩

theorem mod2pi_add_int (x : ℝ) (n : ℤ) : mod2pi (x + (n:ℝ) * (2*π)) = mod2pi x := by
  have hpi : (0:ℝ) < 2*π := by positivity
  have hfl : ⌊(x + (n:ℝ) * (2*π)) / (2*π)⌋ = ⌊x / (2*π)⌋ + n := by
    rw [show (x + (n:ℝ) * (2*π)) / (2*π) = x / (2*π) + (n:ℝ) from by field_simp]
    exact Int.floor_add_int _ n
  rw [mod2pi, mod2pi, hfl]
  push_cast
  ring

theorem mod2pi_congr {x y : ℝ} (h : ∃ n : ℤ, x - y = (n:ℝ) * (2*π)) :
    mod2pi x = mod2pi y := by
  obtain ⟨n, hn⟩ := h
  rw [show x = y + (n:ℝ) * (2*π) from by linarith, mod2pi_add_int]

theorem mod2pi_nonneg (x : ℝ) : 0 ≤ mod2pi x := by
  have hpi : (0:ℝ) < 2*π := by positivity
  have h := Int.fract_nonneg (x / (2*π))
  have hfr : mod2pi x = (2*π) * Int.fract (x / (2*π)) := by
    rw [mod2pi, Int.fract]
    field_simp
  rw [hfr]
  positivity

theorem mod2pi_lt_two_pi (x : ℝ) : mod2pi x < 2*π := by
  have hpi : (0:ℝ) < 2*π := by positivity
  have h := Int.fract_lt_one (x / (2*π))
  have hfr : mod2pi x = (2*π) * Int.fract (x / (2*π)) := by
    rw [mod2pi, Int.fract]
    field_simp
  rw [hfr]
  calc (2*π) * Int.fract (x / (2*π)) < (2*π) * 1 := by
        exact mul_lt_mul_of_pos_left h hpi
    _ = 2*π := mul_one _

theorem mod2pi_idem (x : ℝ) : mod2pi (mod2pi x) = mod2pi x :=
  mod2pi_eq_self (mod2pi_nonneg x) (mod2pi_lt_two_pi x)

theorem mod2pi_add_mod2pi (a b : ℝ) :
    mod2pi (mod2pi a + mod2pi b) = mod2pi (a + b) := by
  obtain ⟨m, hm⟩ := mod2pi_sub_self a
  obtain ⟨n, hn⟩ := mod2pi_sub_self b
  exact mod2pi_congr ⟨m + n, by push_cast; linarith⟩

theorem mod2pi_sub_mod2pi (a b : ℝ) :
    mod2pi (mod2pi a - mod2pi b) = mod2pi (a - b) := by
  obtain ⟨m, hm⟩ := mod2pi_sub_self a
  obtain ⟨n, hn⟩ := mod2pi_sub_self b
  exact mod2pi_congr ⟨m - n, by push_cast; linarith⟩

theorem mod2pi_add_mod2pi_right (a b : ℝ) :
    mod2pi (a + mod2pi b) = mod2pi (a + b) := by
  obtain ⟨n, hn⟩ := mod2pi_sub_self b
  exact mod2pi_congr ⟨n, by push_cast; linarith⟩

theorem adjointMap_rot0 (x θ : ℝ) : adjointMap (0, x) (0, θ) = (0, mod2pi θ) := by
  have h : adjointMap (0, x) (0, θ) =
      (0, mod2pi (mod2pi (x + θ) + mod2pi (-x))) := by
    unfold adjointMap o2Combine o2Inverse o2ElementR
    norm_num
  rw [h, mod2pi_add_mod2pi]
  exact congrArg _ (mod2pi_congr ⟨0, by push_cast; ring⟩)

theorem adjointMap_rot1 (x θ : ℝ) : adjointMap (0, x) (1, θ) = (1, mod2pi (2*x + θ)) := by
  have h : adjointMap (0, x) (1, θ) =
      (1, mod2pi (mod2pi (x + θ) - mod2pi (-x))) := by
    unfold adjointMap o2Combine o2Inverse o2ElementR
    norm_num
    rw [← sub_eq_add_neg]
  rw [h, mod2pi_sub_mod2pi]
  exact congrArg _ (mod2pi_congr ⟨0, by push_cast; ring⟩)

/-- Claim C6: every subgroup inclusion/restriction pair built by
`CyclicGroup._subgroup` and `O2._subgroup` satisfies
`restriction(inclusion(s)) = s` on the subgroup and maps the subgroup
identity to the parent identity, covering the cyclic-in-cyclic case and all
five O(2) cases (`C_M`, `SO(2)`, reflection-only `C_2`, dihedral `D_M`, and
the conjugated-`O(2)` adjoint case); concretely,
`CyclicGroup(6).subgroup(3)` includes the subgroup element `1` as
`CyclicGroup(6).element(2)`. -/
theorem c6_subgroup_maps :
    (∀ (N M : ℕ) (s : ℤ), 0 < N → M ∣ N → 0 ≤ s → s < (M:ℤ) →
        cnChildMap N M (cnParentMap N M s) = some s) ∧
    (∀ N M : ℕ, cnParentMap N M 0 = 0) ∧
    (cnParentMap 6 3 1 = 2) ∧
    (∀ (M : ℕ) (s : ℤ), 0 < M → 0 ≤ s → s < (M:ℤ) →
        o2ToCm M (cmToO2 M s) = some s) ∧
    (∀ M : ℕ, cmToO2 M 0 = (0, 0)) ∧
    (∀ (axis : ℝ) (s : ℤ), s = 0 ∨ s = 1 →
        o2ToFlip axis (flipToO2 axis s) = some s) ∧
    (∀ axis : ℝ, flipToO2 axis 0 = (0, 0)) ∧
    (∀ θ : ℝ, 0 ≤ θ → θ < 2*π → o2ToSo2 (so2ToO2 θ) = some θ) ∧
    (so2ToO2 0 = (0, 0)) ∧
    (∀ (axis : ℝ) (M : ℕ) (f : ℕ) (r : ℤ), 0 < M → 0 ≤ r → r < (M:ℤ) →
        o2ToDn axis M (dnToO2 axis M (f, r)) = some (f, r)) ∧
    (∀ (axis : ℝ) (M : ℕ) (hM : 0 < M), dnToO2 axis M (0, 0) = (0, 0)) ∧
    (∀ (axis θ : ℝ) (j : ℕ), j < 2 → 0 ≤ θ → θ < 2*π →
        adjointMap (o2ElementR (0, -(axis/2)))
          (adjointMap (o2ElementR (0, axis/2)) (j, θ)) = (j, θ)) ∧
    (∀ axis : ℝ, adjointMap (o2ElementR (0, axis/2)) (0, 0) = (0, 0)) := by
  refine ⟨?_, ?_, ?_, ?_, ?_, ?_, ?_, ?_, ?_, ?_, ?_, ?_, ?_⟩
  · intro N M s hN hMN hs0 hsM
    obtain ⟨t, ht⟩ := hMN
    have hM0 : 0 < M := by
      rcases Nat.eq_zero_or_pos M with h | h
      · subst h; simp at ht; omega
      · exact h
    have ht0 : 0 < t := by
      rcases Nat.eq_zero_or_pos t with h | h
      · subst h; simp at ht; omega
      · exact h
    have hMz : ((M:ℕ):ℤ) ≠ 0 := by exact_mod_cast hM0.ne'
    have htz : ((t:ℕ):ℤ) ≠ 0 := by exact_mod_cast ht0.ne'
    have hinc : cnParentMap N M s = s * (t:ℤ) := by
      rw [cnParentMap, ht]
      push_cast
      rw [show s * ((M:ℤ) * (t:ℤ)) = (M:ℤ) * (s * (t:ℤ)) from by ring]
      exact Int.mul_ediv_cancel_left _ hMz
    have hrat : (N:ℤ) / (M:ℤ) = (t:ℤ) := by
      rw [ht]
      push_cast
      exact Int.mul_ediv_cancel_left _ hMz
    rw [cnChildMap, hinc, hrat]
    rw [if_neg (by simp [Int.mul_emod_left])]
    rw [Int.mul_ediv_cancel s htz]
  · intro N M
    simp [cnParentMap]
  · decide
  · intro M s hM hs0 hsM
    have hMne : ((M:ℕ):ℝ) ≠ 0 := Nat.cast_ne_zero.mpr hM.ne'
    obtain ⟨n, hn⟩ := mod2pi_sub_self (cnRadians M s)
    have he : cmToO2 M s = (0, mod2pi (cnRadians M s)) := rfl
    have hm2 : mod2pi (cnRadians M s) = cnRadians M s + (n:ℝ)*(2*π) := by linarith
    rw [he, o2ToCm]
    rw [if_pos rfl]
    have hc : cycleClose (mod2pi (cnRadians M s)) 0 (2*π/(M:ℝ)) := by
      refine ⟨s + (M:ℤ) * n, ?_⟩
      rw [hm2, cnRadians]
      push_cast
      field_simp
      ring
    rw [if_pos hc]
    have hval : (M:ℝ) * mod2pi (cnRadians M s) / (2*π) = ((s + (M:ℤ) * n : ℤ):ℝ) := by
      rw [hm2, cnRadians]
      push_cast
      field_simp
      ring
    rw [hval, round_intCast]
    rw [Int.add_mul_emod_self_left, Int.emod_eq_of_lt hs0 hsM]
  · intro M
    simp [cmToO2, o2ElementR, cnRadians, mod2pi_zero]
  · intro axis s hs
    rcases hs with h | h <;> subst h
    · rw [flipToO2, if_pos rfl, o2ToFlip]
      rw [if_pos ⟨rfl, ⟨0, by push_cast; ring⟩⟩]
    · obtain ⟨n, hn⟩ := mod2pi_sub_self axis
      rw [flipToO2, if_neg (by norm_num)]
      have he : o2ElementR (1, axis) = ((1:ℕ), mod2pi axis) := rfl
      rw [he, o2ToFlip]
      rw [if_neg (by norm_num)]
      rw [if_pos ⟨rfl, ⟨n, by push_cast; linarith⟩⟩]
  · intro axis
    rw [flipToO2, if_pos rfl]
  · intro θ h0 h1
    simp [so2ToO2, o2ToSo2, o2ElementR, so2Element, mod2pi_idem, mod2pi_eq_self h0 h1]
  · simp [so2ToO2, o2ElementR, mod2pi_zero]
  · intro axis M f r hM hr0 hrM
    have hMne : ((M:ℕ):ℝ) ≠ 0 := Nat.cast_ne_zero.mpr hM.ne'
    obtain ⟨n, hn⟩ := mod2pi_sub_self ((r:ℝ) * (2*π) / (M:ℝ) + (f:ℝ) * axis)
    have he : dnToO2 axis M (f, r) =
        (f, mod2pi ((r:ℝ) * (2*π) / (M:ℝ) + (f:ℝ) * axis)) := rfl
    have hm2 : mod2pi ((r:ℝ) * (2*π) / (M:ℝ) + (f:ℝ) * axis) =
        (r:ℝ) * (2*π) / (M:ℝ) + (f:ℝ) * axis + (n:ℝ)*(2*π) := by linarith
    rw [he, o2ToDn]
    have hc : cycleClose
        (mod2pi ((r:ℝ) * (2*π) / (M:ℝ) + (f:ℝ) * axis) - (f:ℝ) * axis) 0
        (2*π/(M:ℝ)) := by
      refine ⟨r + (M:ℤ) * n, ?_⟩
      rw [hm2]
      push_cast
      field_simp
      ring
    rw [if_pos hc]
    have hval : (mod2pi ((r:ℝ) * (2*π) / (M:ℝ) + (f:ℝ) * axis) - (f:ℝ) * axis)
        * (M:ℝ) / (2*π) = ((r + (M:ℤ) * n : ℤ):ℝ) := by
      rw [hm2]
      push_cast
      field_simp
      ring
    rw [hval, round_intCast, dnElement]
    rw [Int.add_mul_emod_self_left, Int.emod_eq_of_lt hr0 hrM]
  · intro axis M hM
    have hMne : ((M:ℕ):ℝ) ≠ 0 := Nat.cast_ne_zero.mpr hM.ne'
    rw [dnToO2, o2ElementR]
    norm_num [mod2pi_zero]
  · intro axis θ j hj h0 h1
    obtain ⟨p, hp⟩ := mod2pi_sub_self (axis/2)
    obtain ⟨q, hq⟩ := mod2pi_sub_self (-(axis/2))
    have he1 : o2ElementR (0, axis/2) = ((0:ℕ), mod2pi (axis/2)) := rfl
    have he2 : o2ElementR (0, -(axis/2)) = ((0:ℕ), mod2pi (-(axis/2))) := rfl
    rw [he1, he2]
    interval_cases j
    · rw [adjointMap_rot0, adjointMap_rot0, mod2pi_idem, mod2pi_eq_self h0 h1]
    · rw [adjointMap_rot1, adjointMap_rot1, mod2pi_add_mod2pi_right]
      have harg : mod2pi (2 * mod2pi (-(axis/2)) + (2 * mod2pi (axis/2) + θ)) =
          mod2pi θ :=
        mod2pi_congr ⟨2*q + 2*p, by push_cast; linarith⟩
      rw [harg, mod2pi_eq_self h0 h1]
  · intro axis
    have he1 : o2ElementR (0, axis/2) = ((0:ℕ), mod2pi (axis/2)) := rfl
    rw [he1, adjointMap_rot0, mod2pi_zero]

/-- Witness for C6 at concrete inputs:
`CyclicGroup(6).subgroup(3)` round trip of element `1`, and the O(2)
round trips at concrete parameters. -/
theorem c6_witness :
    cnChildMap 6 3 (cnParentMap 6 3 1) = some 1 ∧
    o2ToCm 4 (cmToO2 4 3) = some 3 ∧
    o2ToDn π 4 (dnToO2 π 4 (1, 3)) = some (1, 3) :=
  ⟨c6_subgroup_maps.1 6 3 1 (by norm_num) (by norm_num) (by norm_num) (by norm_num),
   c6_subgroup_maps.2.2.2.1 4 3 (by norm_num) (by norm_num) (by norm_num),
   c6_subgroup_maps.2.2.2.2.2.2.2.2.2.1 π 4 1 3 (by norm_num) (by norm_num) (by norm_num)⟩

theorem findIrrep_eq_none {κ α : Type} [DecidableEq κ] {cache : List (κ × α)} {k : κ}
    (h : ∀ p ∈ cache, p.1 ≠ k) : findIrrep cache k = none := by
  induction cache with
  | nil => rfl
  | cons hd tl ih =>
      obtain ⟨k0, o⟩ := hd
      rw [findIrrep]
      rw [if_neg (h (k0, o) (List.mem_cons_self _ _))]
      exact ih fun p hp => h p (List.mem_cons_of_mem _ hp)

theorem findIrrep_cons_self {κ α : Type} [DecidableEq κ] (cache : List (κ × α))
    (k : κ) (o : α) : findIrrep ((k, o) :: cache) k = some o := by
  rw [findIrrep, if_pos rfl]

/-- Claim C8: invalid irrep ids always raise, and the registry is left
unchanged (no pollution): for `CyclicGroup(N)`, any integer `k` outside
`[0, N // 2]` hits the `assert` (given a registry holding only valid ids);
for `O2`, any `j ∉ {0, 1}` hits the `assert`, and `j = 0` with `k > 0`
raises the explicit `ValueError`. -/
theorem c8_invalid_irrep :
    (∀ (α : Type) (N : ℕ) (build : ℤ → α) (cache : List (ℤ × α)) (k : ℤ),
        (∀ p ∈ cache, 0 ≤ p.1 ∧ p.1 ≤ (N:ℤ)/2) → (k < 0 ∨ (N:ℤ)/2 < k) →
        cnIrrepMethod N build cache k = (cache, Except.error PyErr.assertionError)) ∧
    (∀ (α : Type) (build : ℤ × ℤ → α) (cache : List ((ℤ × ℤ) × α)) (j k : ℤ),
        j ≠ 0 → j ≠ 1 →
        o2IrrepMethod build cache j k = (cache, Except.error PyErr.assertionError)) ∧
    (∀ (α : Type) (build : ℤ × ℤ → α) (cache : List ((ℤ × ℤ) × α)) (k : ℤ),
        (∀ p ∈ cache, p.1.1 = 0 → p.1.2 = 0) → 0 < k →
        o2IrrepMethod build cache 0 k = (cache, Except.error PyErr.valueError)) := by
  refine ⟨?_, ?_, ?_⟩
  · intro α N build cache k hwf hk
    have hnone : findIrrep cache k = none := by
      apply findIrrep_eq_none
      intro p hp heq
      have := hwf p hp
      rw [heq] at this
      rcases hk with h | h <;> omega
    rw [cnIrrepMethod, hnone]
    rw [if_neg (by rcases hk with h | h <;> omega)]
  · intro α build cache j k hj0 hj1
    rw [o2IrrepMethod, if_pos (by tauto)]
  · intro α build cache k hwf hk
    have hnone : findIrrep cache ((0:ℤ), k) = none := by
      apply findIrrep_eq_none
      intro p hp heq
      have := hwf p hp
      rw [heq] at this
      have := this rfl
      omega
    rw [o2IrrepMethod, if_neg (by tauto), if_neg (by omega), hnone]
    rw [if_pos rfl, if_neg (by omega)]

/-- Witness for C8 at concrete inputs: `CyclicGroup(4).irrep(3)` (frequency
above `N // 2 = 2`), `O2.irrep(2, 0)` and `O2.irrep(0, 1)`, each from an
empty registry. -/
theorem c8_witness :
    cnIrrepMethod 4 (fun k => k) [] 3 = ([], Except.error PyErr.assertionError) ∧
    o2IrrepMethod (fun p => p) [] 2 0 = ([], Except.error PyErr.assertionError) ∧
    o2IrrepMethod (fun p => p) [] 0 1 = ([], Except.error PyErr.valueError) :=
  ⟨c8_invalid_irrep.1 ℤ 4 (fun k => k) [] 3 (by simp) (by norm_num),
   c8_invalid_irrep.2.1 (ℤ × ℤ) (fun p => p) [] 2 0 (by norm_num) (by norm_num),
   c8_invalid_irrep.2.2 (ℤ × ℤ) (fun p => p) [] 1 (by simp) (by norm_num)⟩

/-- Claim C9: for every valid irrep id the method returns the cached
object: the first call builds and stores it in the per-instance registry,
and every later call with the same id returns that identical stored object
with the registry unchanged.

For both groups: the returned object is `Except.ok o` where `o` is exactly
the object stored in the updated registry under the id, and calling again
on the updated registry returns the very same pair. -/
theorem c9_irrep_cache :
    (∀ (α : Type) (N : ℕ) (build : ℤ → α) (cache : List (ℤ × α)) (k : ℤ),
        0 ≤ k → k ≤ (N:ℤ)/2 →
        ∃ o, (cnIrrepMethod N build cache k).2 = Except.ok o ∧
          findIrrep (cnIrrepMethod N build cache k).1 k = some o ∧
          cnIrrepMethod N build (cnIrrepMethod N build cache k).1 k =
            ((cnIrrepMethod N build cache k).1, Except.ok o)) ∧
    (∀ (α : Type) (build : ℤ × ℤ → α) (cache : List ((ℤ × ℤ) × α)) (j k : ℤ),
        (j = 0 ∧ k = 0) ∨ (j = 1 ∧ 0 ≤ k) →
        ∃ o, (o2IrrepMethod build cache j k).2 = Except.ok o ∧
          findIrrep (o2IrrepMethod build cache j k).1 (j, k) = some o ∧
          o2IrrepMethod build (o2IrrepMethod build cache j k).1 j k =
            ((o2IrrepMethod build cache j k).1, Except.ok o)) := by
  constructor
  · intro α N build cache k hk0 hk1
    cases hfind : findIrrep cache k with
    | some o =>
        refine ⟨o, ?_, ?_, ?_⟩ <;> simp [cnIrrepMethod, hfind]
    | none =>
        refine ⟨build k, ?_, ?_, ?_⟩
        · simp [cnIrrepMethod, hfind, if_pos (And.intro hk0 hk1)]
        · rw [show (cnIrrepMethod N build cache k).1 = (k, build k) :: cache from by
            simp [cnIrrepMethod, hfind, if_pos (And.intro hk0 hk1)]]
          exact findIrrep_cons_self cache k (build k)
        · rw [show (cnIrrepMethod N build cache k).1 = (k, build k) :: cache from by
            simp [cnIrrepMethod, hfind, if_pos (And.intro hk0 hk1)]]
          rw [cnIrrepMethod, findIrrep_cons_self]
  · intro α build cache j k hjk
    have hj : j = 0 ∨ j = 1 := by rcases hjk with ⟨h, _⟩ | ⟨h, _⟩ <;> omega
    have hk0 : 0 ≤ k := by rcases hjk with ⟨_, h⟩ | ⟨_, h⟩ <;> omega
    cases hfind : findIrrep cache (j, k) with
    | some o =>
        have hstep : o2IrrepMethod build cache j k = (cache, Except.ok o) := by
          rw [o2IrrepMethod, if_neg (not_not_intro hj), if_neg (not_not_intro hk0), hfind]
        refine ⟨o, ?_, ?_, ?_⟩
        · rw [hstep]
        · rw [hstep]
          exact hfind
        · rw [hstep, o2IrrepMethod, if_neg (not_not_intro hj),
            if_neg (not_not_intro hk0), hfind]
    | none =>
        have hstep : o2IrrepMethod build cache j k =
            (((j, k), build (j, k)) :: cache, Except.ok (build (j, k))) := by
          rw [o2IrrepMethod, if_neg (not_not_intro hj), if_neg (not_not_intro hk0), hfind]
          rcases hjk with ⟨h1, h2⟩ | ⟨h1, h2⟩
          · subst h1; subst h2
            rw [if_pos rfl, if_pos rfl]
          · subst h1
            rw [if_neg (by norm_num)]
        refine ⟨build (j, k), ?_, ?_, ?_⟩
        · rw [hstep]
        · rw [hstep]
          exact findIrrep_cons_self cache (j, k) (build (j, k))
        · rw [hstep]
          rw [o2IrrepMethod, if_neg (not_not_intro hj), if_neg (not_not_intro hk0),
            findIrrep_cons_self]

/-- Witness for C9: `CyclicGroup(4).irrep(1)` and `O2.irrep(1, 2)` from an
empty registry. -/
theorem c9_witness :
    (∃ o, (cnIrrepMethod 4 (fun k => k) [] 1).2 = Except.ok o ∧
      findIrrep (cnIrrepMethod 4 (fun k => k) [] 1).1 1 = some o ∧
      cnIrrepMethod 4 (fun k => k) (cnIrrepMethod 4 (fun k => k) [] 1).1 1 =
        ((cnIrrepMethod 4 (fun k => k) [] 1).1, Except.ok o)) ∧
    (∃ o, (o2IrrepMethod (fun p => p) [] 1 2).2 = Except.ok o ∧
      findIrrep (o2IrrepMethod (fun p => p) [] 1 2).1 (1, 2) = some o ∧
      o2IrrepMethod (fun p => p) (o2IrrepMethod (fun p => p) [] 1 2).1 1 2 =
        ((o2IrrepMethod (fun p => p) [] 1 2).1, Except.ok o)) :=
  ⟨c9_irrep_cache.1 ℤ 4 (fun k => k) [] 1 (by norm_num) (by norm_num),
   c9_irrep_cache.2 (ℤ × ℤ) (fun p => p) [] 1 2 (Or.inr ⟨rfl, by norm_num⟩)⟩

theorem dotL_one (a1 b1 : ℝ) : dotL [a1] [b1] = a1*b1 := by
  simp [dotL]

theorem dotL_two (a1 a2 b1 b2 : ℝ) : dotL [a1, a2] [b1, b2] = a1*b1 + a2*b2 := by
  simp [dotL]

theorem dotL_four (a1 a2 a3 a4 b1 b2 b3 b4 : ℝ) :
    dotL [a1, a2, a3, a4] [b1, b2, b3, b4] = a1*b1 + a2*b2 + a3*b3 + a4*b4 := by
  simp [dotL]
  ring

theorem sq2_inv_mul_self : (Real.sqrt 2)⁻¹ * (Real.sqrt 2)⁻¹ = (2:ℝ)⁻¹ := by
  rw [← mul_inv, Real.mul_self_sqrt (by norm_num : (0:ℝ) ≤ 2)]

theorem orthonormal_eye1 : orthonormalCols [[(1:ℝ)]] 1 := by
  refine ⟨rfl, ?_, ?_, ?_⟩
  · intro c hc
    simp only [List.mem_cons, List.not_mem_nil, or_false] at hc
    subst hc
    rfl
  · intro c hc
    simp only [List.mem_cons, List.not_mem_nil, or_false] at hc
    subst hc
    rw [dotL_one]
    norm_num
  · exact List.pairwise_singleton _ _

theorem orthonormal_eye2 : orthonormalCols [[(1:ℝ), 0], [0, 1]] 2 := by
  refine ⟨rfl, ?_, ?_, ?_⟩
  · intro c hc
    simp only [List.mem_cons, List.not_mem_nil, or_false] at hc
    rcases hc with rfl | rfl <;> rfl
  · intro c hc
    simp only [List.mem_cons, List.not_mem_nil, or_false] at hc
    rcases hc with rfl | rfl <;> (rw [dotL_two]; norm_num)
  · refine List.Pairwise.cons ?_ (List.pairwise_singleton _ _)
    intro c hc
    simp only [List.mem_cons, List.not_mem_nil, or_false] at hc
    subst hc
    constructor <;> (rw [dotL_two]; norm_num)

theorem orthonormal_diag2 : orthonormalCols [[(1:ℝ), 0], [0, -1]] 2 := by
  refine ⟨rfl, ?_, ?_, ?_⟩
  · intro c hc
    simp only [List.mem_cons, List.not_mem_nil, or_false] at hc
    rcases hc with rfl | rfl <;> rfl
  · intro c hc
    simp only [List.mem_cons, List.not_mem_nil, or_false] at hc
    rcases hc with rfl | rfl <;> (rw [dotL_two]; norm_num)
  · refine List.Pairwise.cons ?_ (List.pairwise_singleton _ _)
    intro c hc
    simp only [List.mem_cons, List.not_mem_nil, or_false] at hc
    subst hc
    constructor <;> (rw [dotL_two]; norm_num)

theorem quad_orthonormal (u v : ℝ) (hu : u*u = 1) (hv : v*v = 1) :
    orthonormalCols
      [[(Real.sqrt 2)⁻¹, 0, 0, (Real.sqrt 2)⁻¹],
       [0, -(u*(Real.sqrt 2)⁻¹), u*(Real.sqrt 2)⁻¹, 0],
       [(Real.sqrt 2)⁻¹, 0, 0, -(Real.sqrt 2)⁻¹],
       [0, v*(Real.sqrt 2)⁻¹, v*(Real.sqrt 2)⁻¹, 0]] 4 := by
  have hs := sq2_inv_mul_self
  refine ⟨rfl, ?_, ?_, ?_⟩
  · intro c hc
    simp only [List.mem_cons, List.not_mem_nil, or_false] at hc
    rcases hc with rfl | rfl | rfl | rfl <;> rfl
  · intro c hc
    simp only [List.mem_cons, List.not_mem_nil, or_false] at hc
    rcases hc with rfl | rfl | rfl | rfl <;> rw [dotL_four]
    · linear_combination 2*hs
    · linear_combination (2*(Real.sqrt 2)⁻¹*(Real.sqrt 2)⁻¹)*hu + 2*hs
    · linear_combination 2*hs
    · linear_combination (2*(Real.sqrt 2)⁻¹*(Real.sqrt 2)⁻¹)*hv + 2*hs
  · refine List.Pairwise.cons ?_ (List.Pairwise.cons ?_
      (List.Pairwise.cons ?_ (List.pairwise_singleton _ _)))
    · intro c hc
      simp only [List.mem_cons, List.not_mem_nil, or_false] at hc
      rcases hc with rfl | rfl | rfl <;> constructor <;> (rw [dotL_four]; ring)
    · intro c hc
      simp only [List.mem_cons, List.not_mem_nil, or_false] at hc
      rcases hc with rfl | rfl <;> constructor <;> (rw [dotL_four]; ring)
    · intro c hc
      simp only [List.mem_cons, List.not_mem_nil, or_false] at hc
      subst hc
      constructor <;> (rw [dotL_four]; ring)

theorem cnSize_zero (N : ℕ) : cnSize N 0 = 1 := by
  simp [cnSize]

theorem cnSize_one_or_two (N : ℕ) (k : ℤ) : cnSize N k = 1 ∨ cnSize N k = 2 := by
  unfold cnSize
  split_ifs <;> simp

theorem cnSize_two {N : ℕ} {k : ℤ} (h1 : k ≠ 0)
    (h2 : ¬(N % 2 = 0 ∧ k = ((N/2 : ℕ):ℤ))) : cnSize N k = 2 := by
  rw [cnSize, if_neg h1, if_neg h2]

theorem cnSize_one_nyq {N : ℕ} {k : ℤ} (he : N % 2 = 0) (hk : k = ((N/2 : ℕ):ℤ)) :
    cnSize N k = 1 := by
  rw [cnSize]
  split_ifs with h
  · rfl
  · rfl
  · tauto

theorem eyeCols_one : eyeCols 1 = [[(1:ℝ)]] := by
  simp [eyeCols, List.range_succ]

theorem eyeCols_two : eyeCols 2 = [[(1:ℝ), 0], [0, 1]] := by
  simp [eyeCols, List.range_succ]

theorem negSecondCol_eye2 : negSecondCol (eyeCols 2) = [[(1:ℝ), 0], [0, -1]] := by
  rw [eyeCols_two, negSecondCol]
  norm_num

theorem cg_take_pos : [cgCol 0, cgCol 1].map swapMid =
    [[(Real.sqrt 2)⁻¹, 0, 0, (Real.sqrt 2)⁻¹],
     [0, -(Real.sqrt 2)⁻¹, (Real.sqrt 2)⁻¹, 0]] := by
  simp [cgCol, cgBase, swapMid]
  norm_num [neg_div]

theorem cg_take_neg : (negSecondCol [cgCol 0, cgCol 1]).map swapMid =
    [[(Real.sqrt 2)⁻¹, 0, 0, (Real.sqrt 2)⁻¹],
     [0, (Real.sqrt 2)⁻¹, -(Real.sqrt 2)⁻¹, 0]] := by
  rw [negSecondCol]
  simp [cgCol, cgBase, swapMid]
  norm_num [neg_div]

theorem cg_drop_pos : [cgCol 2, cgCol 3].map swapMid =
    [[(Real.sqrt 2)⁻¹, 0, 0, -(Real.sqrt 2)⁻¹],
     [0, (Real.sqrt 2)⁻¹, (Real.sqrt 2)⁻¹, 0]] := by
  simp [cgCol, cgBase, swapMid]
  norm_num [neg_div]

theorem cg_drop_neg : (negSecondCol [cgCol 2, cgCol 3]).map swapMid =
    [[(Real.sqrt 2)⁻¹, 0, 0, -(Real.sqrt 2)⁻¹],
     [0, -(Real.sqrt 2)⁻¹, -(Real.sqrt 2)⁻¹, 0]] := by
  rw [negSecondCol]
  simp [cgCol, cgBase, swapMid]
  norm_num [neg_div]

theorem orthonormal_ABCD : orthonormalCols
    [[(Real.sqrt 2)⁻¹, 0, 0, (Real.sqrt 2)⁻¹],
     [0, -(Real.sqrt 2)⁻¹, (Real.sqrt 2)⁻¹, 0],
     [(Real.sqrt 2)⁻¹, 0, 0, -(Real.sqrt 2)⁻¹],
     [0, (Real.sqrt 2)⁻¹, (Real.sqrt 2)⁻¹, 0]] 4 := by
  have h := quad_orthonormal 1 1 (by norm_num) (by norm_num)
  simpa using h

theorem orthonormal_ABCDn : orthonormalCols
    [[(Real.sqrt 2)⁻¹, 0, 0, (Real.sqrt 2)⁻¹],
     [0, -(Real.sqrt 2)⁻¹, (Real.sqrt 2)⁻¹, 0],
     [(Real.sqrt 2)⁻¹, 0, 0, -(Real.sqrt 2)⁻¹],
     [0, -(Real.sqrt 2)⁻¹, -(Real.sqrt 2)⁻¹, 0]] 4 := by
  have h := quad_orthonormal 1 (-1) (by norm_num) (by norm_num)
  simpa using h

theorem orthonormal_ABnCD : orthonormalCols
    [[(Real.sqrt 2)⁻¹, 0, 0, (Real.sqrt 2)⁻¹],
     [0, (Real.sqrt 2)⁻¹, -(Real.sqrt 2)⁻¹, 0],
     [(Real.sqrt 2)⁻¹, 0, 0, -(Real.sqrt 2)⁻¹],
     [0, (Real.sqrt 2)⁻¹, (Real.sqrt 2)⁻¹, 0]] 4 := by
  have h := quad_orthonormal (-1) 1 (by norm_num) (by norm_num)
  simpa using h

theorem orthonormal_ABnCDn : orthonormalCols
    [[(Real.sqrt 2)⁻¹, 0, 0, (Real.sqrt 2)⁻¹],
     [0, (Real.sqrt 2)⁻¹, -(Real.sqrt 2)⁻¹, 0],
     [(Real.sqrt 2)⁻¹, 0, 0, -(Real.sqrt 2)⁻¹],
     [0, -(Real.sqrt 2)⁻¹, -(Real.sqrt 2)⁻¹, 0]] 4 := by
  have h := quad_orthonormal (-1) (-1) (by norm_num) (by norm_num)
  simpa using h

theorem cg_second_unfolded {N : ℕ} {m n : ℤ} (h1 : ¬(m = 0 ∨ n = 0))
    (h2 : ¬(N % 2 = 0 ∧ (m = ((N/2:ℕ):ℤ) ∨ n = ((N/2:ℕ):ℤ)))) :
    cnClebschGordanCols N m n (m + n) =
      [[(Real.sqrt 2)⁻¹, 0, 0, -(Real.sqrt 2)⁻¹],
       [0, (Real.sqrt 2)⁻¹, (Real.sqrt 2)⁻¹, 0]] := by
  rw [cnClebschGordanCols, if_neg h1, if_neg h2, if_pos rfl, cg_drop_pos]

theorem cg_second_folded {N : ℕ} {m n : ℤ} (h1 : ¬(m = 0 ∨ n = 0))
    (h2 : ¬(N % 2 = 0 ∧ (m = ((N/2:ℕ):ℤ) ∨ n = ((N/2:ℕ):ℤ))))
    (hfold : ¬(m + n ≤ ((N/2:ℕ):ℤ))) :
    cnClebschGordanCols N m n ((N:ℤ) - m - n) =
      [[(Real.sqrt 2)⁻¹, 0, 0, -(Real.sqrt 2)⁻¹],
       [0, -(Real.sqrt 2)⁻¹, -(Real.sqrt 2)⁻¹, 0]] := by
  have hne : ¬((N:ℤ) - m - n = m + n) := by omega
  rw [cnClebschGordanCols, if_neg h1, if_neg h2, if_neg hne, if_pos rfl, cg_drop_neg]

theorem dim_second_unfolded {N : ℕ} {m n : ℤ}
    (h2 : ¬(N % 2 = 0 ∧ (m = ((N/2:ℕ):ℤ) ∨ n = ((N/2:ℕ):ℤ))))
    (hf : m + n ≤ ((N/2:ℕ):ℤ)) (hm1 : m ≠ 0) (hn1 : n ≠ 0)
    (hm0 : 0 ≤ m) (hn0 : 0 ≤ n) :
    (if 2*(m+n) < (N:ℤ) then 1 else 2) * cnSize N (m+n) = 2 := by
  by_cases h4 : 2*(m+n) < (N:ℤ)
  · rw [if_pos h4, cnSize_two (by omega) (by omega), one_mul]
  · rw [if_neg h4, cnSize_one_nyq (by omega) (by omega)]

theorem dim_second_folded {N : ℕ} {m n : ℤ}
    (h2 : ¬(N % 2 = 0 ∧ (m = ((N/2:ℕ):ℤ) ∨ n = ((N/2:ℕ):ℤ))))
    (hfold : ¬(m + n ≤ ((N/2:ℕ):ℤ))) (hm1 : m ≠ 0) (hn1 : n ≠ 0)
    (hm0 : 0 ≤ m) (hn0 : 0 ≤ n) (hm : 2*m ≤ (N:ℤ)) (hn : 2*n ≤ (N:ℤ)) :
    (if 2*((N:ℤ)-m-n) < (N:ℤ) then 1 else 2) * cnSize N ((N:ℤ)-m-n) = 2 := by
  have h4 : 2*((N:ℤ)-m-n) < (N:ℤ) := by omega
  rw [if_pos h4, cnSize_two (by omega) (by omega), one_mul]

/-- Claim C4: for every pair of valid `CyclicGroup(N)` irrep frequencies
`m, n`, the Clebsch-Gordan blocks returned for the irreps listed by
`_tensor_product_irreps(m, n)`, stacked and reshaped to a matrix, form an
orthogonal matrix of side `size(ρ_m)·size(ρ_n)`, and the decomposition
satisfies `size(ρ_m)·size(ρ_n) = Σ_j multiplicity_j · size(ρ_j)`; the
2-dim ⊗ 2-dim case selects 2-column blocks of the fixed orthonormal 4x4
matrix, with a sign flip on the second axis in the difference and
folded-sum branches. -/
theorem c4_clebsch_gordan (N : ℕ) (m n : ℤ) (hN : 0 < N)
    (hm0 : 0 ≤ m) (hm : 2*m ≤ (N:ℤ)) (hn0 : 0 ≤ n) (hn : 2*n ≤ (N:ℤ)) :
    orthonormalCols (cnStackedCG N m n) (cnSize N m * cnSize N n) ∧
    ((cnTensorProductIrreps N m n).map (fun p => p.2 * cnSize N p.1)).sum =
      cnSize N m * cnSize N n := by
  by_cases h1 : m = 0 ∨ n = 0
  · have hTP : cnTensorProductIrreps N m n = [(n + m, 1)] := by
      rw [cnTensorProductIrreps, if_pos h1]
    have hCG : cnClebschGordanCols N m n (n + m) = eyeCols (cnSize N (n + m)) := by
      rw [cnClebschGordanCols, if_pos h1, if_pos (add_comm n m)]
    have hstack : cnStackedCG N m n = eyeCols (cnSize N (n + m)) := by
      rw [cnStackedCG, hTP]
      simp only [List.map_cons, List.map_nil, List.flatten_cons, List.flatten_nil,
        List.append_nil]
      exact hCG
    have hsz : cnSize N (n + m) = cnSize N m * cnSize N n := by
      rcases h1 with h | h
      · subst h
        rw [add_zero, cnSize_zero, one_mul]
      · subst h
        rw [zero_add, cnSize_zero, mul_one]
    constructor
    · rw [hstack, ← hsz]
      rcases cnSize_one_or_two N (n + m) with h | h <;> rw [h]
      · rw [eyeCols_one]
        exact orthonormal_eye1
      · rw [eyeCols_two]
        exact orthonormal_eye2
    · rw [hTP, ← hsz]
      simp
  · by_cases h2 : N % 2 = 0 ∧ (m = ((N/2:ℕ):ℤ) ∨ n = ((N/2:ℕ):ℤ))
    · have hm1 : m ≠ 0 := fun h => h1 (Or.inl h)
      have hn1 : n ≠ 0 := fun h => h1 (Or.inr h)
      have hfold : ¬(m + n ≤ ((N/2:ℕ):ℤ)) := by omega
      have hTP : cnTensorProductIrreps N m n = [((N:ℤ) - m - n, 1)] := by
        rw [cnTensorProductIrreps, if_neg h1, if_pos h2, if_neg hfold]
      by_cases hz : (N:ℤ) - m - n = 0
      · have hmn : m = ((N/2:ℕ):ℤ) ∧ n = ((N/2:ℕ):ℤ) := by omega
        have hTP0 : cnTensorProductIrreps N m n = [(0, 1)] := by rw [hTP, hz]
        have hCG : cnClebschGordanCols N m n 0 = eyeCols 1 := by
          rw [cnClebschGordanCols, if_neg h1, if_pos h2, if_neg (by omega),
            if_pos (by omega), if_neg (by rw [cnSize_zero]; norm_num), cnSize_zero]
        have hstack : cnStackedCG N m n = [[(1:ℝ)]] := by
          rw [cnStackedCG, hTP0]
          simp only [List.map_cons, List.map_nil, List.flatten_cons, List.flatten_nil,
            List.append_nil]
          rw [hCG, eyeCols_one]
        have hd : cnSize N m * cnSize N n = 1 := by
          rw [cnSize_one_nyq h2.1 hmn.1, cnSize_one_nyq h2.1 hmn.2]
        constructor
        · rw [hstack, hd]
          exact orthonormal_eye1
        · rw [hTP0, hd]
          simp [cnSize_zero]
      · have hCG : cnClebschGordanCols N m n ((N:ℤ) - m - n) =
            [[(1:ℝ), 0], [0, -1]] := by
          rw [cnClebschGordanCols, if_neg h1, if_pos h2, if_neg (by omega),
            if_pos rfl, cnSize_two hz (by omega), if_pos (by norm_num),
            negSecondCol_eye2]
        have hstack : cnStackedCG N m n = [[(1:ℝ), 0], [0, -1]] := by
          rw [cnStackedCG, hTP]
          simp only [List.map_cons, List.map_nil, List.flatten_cons, List.flatten_nil,
            List.append_nil]
          exact hCG
        have hd : cnSize N m * cnSize N n = 2 := by
          rcases h2.2 with hh | hh
          · rw [cnSize_one_nyq h2.1 hh, cnSize_two hn1 (by omega), one_mul]
          · rw [cnSize_one_nyq h2.1 hh, cnSize_two hm1 (by omega), mul_one]
        constructor
        · rw [hstack, hd]
          exact orthonormal_diag2
        · rw [hTP, hd]
          have hsz2 : cnSize N ((N:ℤ) - m - n) = 2 := cnSize_two hz (by omega)
          simp [hsz2]
    · have hm1 : m ≠ 0 := fun h => h1 (Or.inl h)
      have hn1 : n ≠ 0 := fun h => h1 (Or.inr h)
      have hd : cnSize N m * cnSize N n = 4 := by
        rw [cnSize_two hm1 (by omega), cnSize_two hn1 (by omega)]
      have hCG0cond : ¬((0:ℤ) = m + n) := by omega
      have hCG0cond2 : ¬((0:ℤ) = (N:ℤ) - m - n) := by omega
      by_cases h3 : n = m
      · subst h3
        have hTP : cnTensorProductIrreps N n n = [((0:ℤ), 2),
            (if n + n ≤ ((N/2:ℕ):ℤ) then n + n else (N:ℤ) - n - n,
             if 2 * (if n + n ≤ ((N/2:ℕ):ℤ) then n + n else (N:ℤ) - n - n) < (N:ℤ)
             then 1 else 2)] := by
          rw [cnTensorProductIrreps, if_neg h1, if_neg h2, if_pos rfl]
        have hCG0 : cnClebschGordanCols N n n 0 =
            [[(Real.sqrt 2)⁻¹, 0, 0, (Real.sqrt 2)⁻¹],
             [0, -(Real.sqrt 2)⁻¹, (Real.sqrt 2)⁻¹, 0]] := by
          rw [cnClebschGordanCols, if_neg h1, if_neg h2, if_neg hCG0cond,
            if_neg hCG0cond2, if_pos (by omega), cg_take_pos]
        by_cases hf : n + n ≤ ((N/2:ℕ):ℤ)
        · have hstack : cnStackedCG N n n =
              [[(Real.sqrt 2)⁻¹, 0, 0, (Real.sqrt 2)⁻¹],
               [0, -(Real.sqrt 2)⁻¹, (Real.sqrt 2)⁻¹, 0],
               [(Real.sqrt 2)⁻¹, 0, 0, -(Real.sqrt 2)⁻¹],
               [0, (Real.sqrt 2)⁻¹, (Real.sqrt 2)⁻¹, 0]] := by
            rw [cnStackedCG, hTP, if_pos hf]
            simp only [List.map_cons, List.map_nil, List.flatten_cons, List.flatten_nil,
              List.append_nil]
            rw [hCG0, cg_second_unfolded h1 h2]
            rfl
          constructor
          · rw [hstack, hd]
            exact orthonormal_ABCD
          · rw [hTP, if_pos hf, hd]
            simp only [List.map_cons, List.map_nil, List.sum_cons, List.sum_nil,
              add_zero, cnSize_zero, mul_one]
            rw [dim_second_unfolded h2 hf hn1 hn1 hn0 hn0]
        · have hstack : cnStackedCG N n n =
              [[(Real.sqrt 2)⁻¹, 0, 0, (Real.sqrt 2)⁻¹],
               [0, -(Real.sqrt 2)⁻¹, (Real.sqrt 2)⁻¹, 0],
               [(Real.sqrt 2)⁻¹, 0, 0, -(Real.sqrt 2)⁻¹],
               [0, -(Real.sqrt 2)⁻¹, -(Real.sqrt 2)⁻¹, 0]] := by
            rw [cnStackedCG, hTP, if_neg hf]
            simp only [List.map_cons, List.map_nil, List.flatten_cons, List.flatten_nil,
              List.append_nil]
            rw [hCG0, cg_second_folded h1 h2 hf]
            rfl
          constructor
          · rw [hstack, hd]
            exact orthonormal_ABCDn
          · rw [hTP, if_neg hf, hd]
            simp only [List.map_cons, List.map_nil, List.sum_cons, List.sum_nil,
              add_zero, cnSize_zero, mul_one]
            rw [dim_second_folded h2 hf hn1 hn1 hn0 hn0 hn hn]
      · have hTP : cnTensorProductIrreps N m n = [(|n - m|, 1),
            (if m + n ≤ ((N/2:ℕ):ℤ) then m + n else (N:ℤ) - m - n,
             if 2 * (if m + n ≤ ((N/2:ℕ):ℤ) then m + n else (N:ℤ) - m - n) < (N:ℤ)
             then 1 else 2)] := by
          rw [cnTensorProductIrreps, if_neg h1, if_neg h2, if_neg h3]
        have habs2 : 2 * |n - m| < (N:ℤ) := by
          rcases abs_cases (n - m) with ⟨he, _⟩ | ⟨he, _⟩ <;> omega
        have hj1size : cnSize N (|n - m|) = 2 := by
          refine cnSize_two (by rcases abs_cases (n - m) with ⟨he, _⟩ | ⟨he, _⟩ <;> omega)
            (by omega)
        rcases lt_or_gt_of_ne (fun h => h3 h) with hlt | hgt
        · -- n < m : |n - m| = m - n, branch j = m - n
          have habs : |n - m| = m - n := by
            rw [abs_of_neg (by omega)]
            ring
          have hCG1 : cnClebschGordanCols N m n (|n - m|) =
              [[(Real.sqrt 2)⁻¹, 0, 0, (Real.sqrt 2)⁻¹],
               [0, -(Real.sqrt 2)⁻¹, (Real.sqrt 2)⁻¹, 0]] := by
            rw [habs, cnClebschGordanCols, if_neg h1, if_neg h2, if_neg (by omega),
              if_neg (by omega), if_pos rfl, cg_take_pos]
          by_cases hf : m + n ≤ ((N/2:ℕ):ℤ)
          · have hstack : cnStackedCG N m n =
                [[(Real.sqrt 2)⁻¹, 0, 0, (Real.sqrt 2)⁻¹],
                 [0, -(Real.sqrt 2)⁻¹, (Real.sqrt 2)⁻¹, 0],
                 [(Real.sqrt 2)⁻¹, 0, 0, -(Real.sqrt 2)⁻¹],
                 [0, (Real.sqrt 2)⁻¹, (Real.sqrt 2)⁻¹, 0]] := by
              rw [cnStackedCG, hTP, if_pos hf]
              simp only [List.map_cons, List.map_nil, List.flatten_cons, List.flatten_nil,
                List.append_nil]
              rw [hCG1, cg_second_unfolded h1 h2]
              rfl
            refine ⟨by rw [hstack, hd]; exact orthonormal_ABCD, ?_⟩
            rw [hTP, if_pos hf, hd]
            simp only [List.map_cons, List.map_nil, List.sum_cons, List.sum_nil,
              add_zero, one_mul]
            rw [hj1size, dim_second_unfolded h2 hf hm1 hn1 hm0 hn0]
          · have hstack : cnStackedCG N m n =
                [[(Real.sqrt 2)⁻¹, 0, 0, (Real.sqrt 2)⁻¹],
                 [0, -(Real.sqrt 2)⁻¹, (Real.sqrt 2)⁻¹, 0],
                 [(Real.sqrt 2)⁻¹, 0, 0, -(Real.sqrt 2)⁻¹],
                 [0, -(Real.sqrt 2)⁻¹, -(Real.sqrt 2)⁻¹, 0]] := by
              rw [cnStackedCG, hTP, if_neg hf]
              simp only [List.map_cons, List.map_nil, List.flatten_cons, List.flatten_nil,
                List.append_nil]
              rw [hCG1, cg_second_folded h1 h2 hf]
              rfl
            refine ⟨by rw [hstack, hd]; exact orthonormal_ABCDn, ?_⟩
            rw [hTP, if_neg hf, hd]
            simp only [List.map_cons, List.map_nil, List.sum_cons, List.sum_nil,
              add_zero, one_mul]
            rw [hj1size, dim_second_folded h2 hf hm1 hn1 hm0 hn0 hm hn]
        · -- m < n : |n - m| = n - m, branch j = n - m (sign-flipped block)
          have habs : |n - m| = n - m := abs_of_pos (by omega)
          have hCG1 : cnClebschGordanCols N m n (|n - m|) =
              [[(Real.sqrt 2)⁻¹, 0, 0, (Real.sqrt 2)⁻¹],
               [0, (Real.sqrt 2)⁻¹, -(Real.sqrt 2)⁻¹, 0]] := by
            rw [habs, cnClebschGordanCols, if_neg h1, if_neg h2, if_neg (by omega),
              if_neg (by omega), if_neg (by omega), if_pos rfl, cg_take_neg]
          by_cases hf : m + n ≤ ((N/2:ℕ):ℤ)
          · have hstack : cnStackedCG N m n =
                [[(Real.sqrt 2)⁻¹, 0, 0, (Real.sqrt 2)⁻¹],
                 [0, (Real.sqrt 2)⁻¹, -(Real.sqrt 2)⁻¹, 0],
                 [(Real.sqrt 2)⁻¹, 0, 0, -(Real.sqrt 2)⁻¹],
                 [0, (Real.sqrt 2)⁻¹, (Real.sqrt 2)⁻¹, 0]] := by
              rw [cnStackedCG, hTP, if_pos hf]
              simp only [List.map_cons, List.map_nil, List.flatten_cons, List.flatten_nil,
                List.append_nil]
              rw [hCG1, cg_second_unfolded h1 h2]
              rfl
            refine ⟨by rw [hstack, hd]; exact orthonormal_ABnCD, ?_⟩
            rw [hTP, if_pos hf, hd]
            simp only [List.map_cons, List.map_nil, List.sum_cons, List.sum_nil,
              add_zero, one_mul]
            rw [hj1size, dim_second_unfolded h2 hf hm1 hn1 hm0 hn0]
          · have hstack : cnStackedCG N m n =
                [[(Real.sqrt 2)⁻¹, 0, 0, (Real.sqrt 2)⁻¹],
                 [0, (Real.sqrt 2)⁻¹, -(Real.sqrt 2)⁻¹, 0],
                 [(Real.sqrt 2)⁻¹, 0, 0, -(Real.sqrt 2)⁻¹],
                 [0, -(Real.sqrt 2)⁻¹, -(Real.sqrt 2)⁻¹, 0]] := by
              rw [cnStackedCG, hTP, if_neg hf]
              simp only [List.map_cons, List.map_nil, List.flatten_cons, List.flatten_nil,
                List.append_nil]
              rw [hCG1, cg_second_folded h1 h2 hf]
              rfl
            refine ⟨by rw [hstack, hd]; exact orthonormal_ABnCDn, ?_⟩
            rw [hTP, if_neg hf, hd]
            simp only [List.map_cons, List.map_nil, List.sum_cons, List.sum_nil,
              add_zero, one_mul]
            rw [hj1size, dim_second_folded h2 hf hm1 hn1 hm0 hn0 hm hn]

/-- Witness for C4 at `N = 5`, `m = 1`, `n = 2` (a genuine 2-dim ⊗ 2-dim
case with folding: 1 + 2 = 3 > 5 // 2). -/
theorem c4_witness :
    orthonormalCols (cnStackedCG 5 1 2) (cnSize 5 1 * cnSize 5 2) ∧
    ((cnTensorProductIrreps 5 1 2).map (fun p => p.2 * cnSize 5 p.1)).sum =
      cnSize 5 1 * cnSize 5 2 :=
  c4_clebsch_gordan 5 1 2 (by norm_num) (by norm_num) (by norm_num) (by norm_num)
    (by norm_num)

theorem psiR_mul (a b : ℝ) : psiR a * psiR b = psiR (a + b) := by
  rw [psiR, psiR, psiR, Matrix.mul_fin_two]
  apply mat2_ext <;> simp only [Real.cos_add, Real.sin_add] <;> ring

theorem psiR_zero : psiR 0 = 1 := by
  rw [psiR]
  norm_num
  exact Matrix.one_fin_two.symm

theorem psiR_inv (a : ℝ) : (psiR a)⁻¹ = psiR (-a) := by
  apply Matrix.inv_eq_right_inv
  rw [psiR_mul, add_neg_cancel, psiR_zero]

theorem psi_eq_psiR (θ : ℝ) (k : ℤ) : psi θ k = psiR ((k:ℝ) * θ) := rfl

theorem psiR_congr {a b : ℝ} (n : ℤ) (h : a = b + (n:ℝ) * (2*π)) :
    psiR a = psiR b := by
  rw [h, psiR, psiR]
  apply mat2_ext <;>
    simp only [Real.cos_add_int_mul_two_pi, Real.sin_add_int_mul_two_pi]

theorem chi_one_sq : chi 1 * chi 1 = 1 := by
  rw [chi_one, Matrix.mul_fin_two]
  norm_num
  exact Matrix.one_fin_two.symm

theorem chi_one_psiR (a : ℝ) : chi 1 * psiR a = psiR (-a) * chi 1 := by
  rw [chi_one, psiR, psiR, Matrix.mul_fin_two, Matrix.mul_fin_two]
  apply mat2_ext <;> simp [Real.cos_neg, Real.sin_neg]

theorem chi_psiR_chi (a : ℝ) : chi 1 * psiR a * chi 1 = psiR (-a) := by
  rw [chi_one_psiR, mul_assoc, chi_one_sq, mul_one]

theorem psiR_k_mod2pi (k : ℤ) (θ : ℝ) :
    psiR ((k:ℝ) * mod2pi θ) = psiR ((k:ℝ) * θ) := by
  apply psiR_congr (-(k * ⌊θ / (2*π)⌋))
  rw [mod2pi]; push_cast; ring

theorem psiR_diag {a : ℝ} (h : Real.sin a = 0) :
    psiR a = !![Real.cos a, 0; 0, Real.cos a] := by
  rw [psiR, h]
  norm_num

theorem cnIrrep2_psiR (M : ℕ) (k s : ℤ) :
    cnIrrep2 M k s = psiR ((k:ℝ) * cnRadians M s) := rfl

theorem cnIrrep1_val (M : ℕ) (f s : ℤ) :
    cnIrrep1 M f s 0 0 = Real.cos ((f:ℝ) * cnRadians M s) := rfl

theorem cnParentMap_mul (N M : ℕ) (q s : ℤ) (hM : 0 < M)
    (hq : (N:ℤ) = (M:ℤ) * q) : cnParentMap N M s = s * q := by
  rw [cnParentMap, hq, show s * ((M:ℤ) * q) = (M:ℤ) * (s * q) by ring]
  exact Int.mul_ediv_cancel_left _ (by exact_mod_cast hM.ne')

theorem cn_incl_irrep2 (N M : ℕ) (k s : ℤ) (hM : 0 < M) (hN : 0 < N)
    (hdvd : (M:ℤ) ∣ (N:ℤ)) :
    cnIrrep2 N k (cnParentMap N M s) = cnIrrep2 M k s := by
  obtain ⟨q, hq⟩ := hdvd
  have hq0 : q ≠ 0 := by
    rintro rfl
    rw [mul_zero] at hq
    omega
  rw [cnParentMap_mul N M q s hM hq]
  have hrad : cnRadians N (s * q) = cnRadians M s := by
    rw [cnRadians, cnRadians]
    have hMr : ((M:ℕ):ℝ) ≠ 0 := by exact_mod_cast hM.ne'
    have hqr : (q:ℝ) ≠ 0 := by exact_mod_cast hq0
    have hNr : ((N:ℕ):ℝ) = ((M:ℕ):ℝ) * (q:ℝ) := by exact_mod_cast hq
    rw [hNr]
    push_cast
    field_simp
    ring
  rw [cnIrrep2, cnIrrep2, hrad]

theorem cnIrrep2_mod (M : ℕ) (k s : ℤ) (hM : 0 < M) :
    cnIrrep2 M k s = cnIrrep2 M (k % (M:ℤ)) s := by
  rw [cnIrrep2_psiR, cnIrrep2_psiR]
  apply psiR_congr (k / (M:ℤ) * s)
  have hk : (k:ℝ) = ((M:ℕ):ℝ) * ((k / (M:ℤ) : ℤ):ℝ) + ((k % (M:ℤ) : ℤ):ℝ) := by
    exact_mod_cast congrArg (Int.cast : ℤ → ℝ) (Int.ediv_add_emod k (M:ℤ)).symm
  have hMr : ((M:ℕ):ℝ) ≠ 0 := by exact_mod_cast hM.ne'
  rw [cnRadians, hk]
  push_cast
  field_simp
  ring

theorem cnIrrep2_fold (M : ℕ) (f s : ℤ) (hM : 0 < M) :
    cnIrrep2 M ((M:ℤ) - f) s = chi 1 * cnIrrep2 M f s * chi 1 := by
  rw [cnIrrep2_psiR, cnIrrep2_psiR, chi_psiR_chi]
  apply psiR_congr s
  have hMr : ((M:ℕ):ℝ) ≠ 0 := by exact_mod_cast hM.ne'
  rw [cnRadians]
  push_cast
  field_simp
  ring

theorem cnIrrep2_diag_zero (M : ℕ) (s : ℤ) :
    cnIrrep2 M 0 s = !![cnIrrep1 M 0 s 0 0, 0; 0, cnIrrep1 M 0 s 0 0] := by
  rw [cnIrrep2_psiR, cnIrrep1_val]
  have h0 : ((0:ℤ):ℝ) * cnRadians M s = 0 := by norm_num
  rw [h0]
  exact psiR_diag Real.sin_zero

theorem cnIrrep2_diag_nyq (M : ℕ) (f s : ℤ) (hM : 0 < M)
    (h2f : 2 * f = (M:ℤ)) :
    cnIrrep2 M f s = !![cnIrrep1 M f s 0 0, 0; 0, cnIrrep1 M f s 0 0] := by
  have hang : (f:ℝ) * cnRadians M s = (s:ℝ) * π := by
    have hf0 : f ≠ 0 := by omega
    have hfr : (f:ℝ) ≠ 0 := by exact_mod_cast hf0
    rw [cnRadians]
    have hMr : ((M:ℕ):ℝ) = 2 * (f:ℝ) := by exact_mod_cast h2f.symm
    rw [hMr]
    field_simp
    ring
  rw [cnIrrep2_psiR, cnIrrep1_val, hang]
  exact psiR_diag (Real.sin_int_mul_pi s)

theorem cnSize_one_cases {N : ℕ} {k : ℤ} (h : cnSize N k = 1) :
    k = 0 ∨ (N % 2 = 0 ∧ k = ((N/2 : ℕ):ℤ)) := by
  by_contra hc
  push_neg at hc
  obtain ⟨h0, hny⟩ := hc
  rw [cnSize_two h0 (fun hand => hny hand.1 hand.2)] at h
  exact absurd h (by norm_num)

theorem emodBounds (k : ℤ) (M : ℕ) (hM : 0 < M) :
    0 ≤ k % (M:ℤ) ∧ k % (M:ℤ) < (M:ℤ) :=
  ⟨Int.emod_nonneg k (by exact_mod_cast hM.ne'),
   Int.emod_lt_of_pos k (by exact_mod_cast hM)⟩

theorem nyq_no_fold {M : ℕ} {k q : ℤ} (hM : 0 < M)
    (h2k : 2 * k = (M:ℤ) * q) : 2 * (k % (M:ℤ)) ≤ (M:ℤ) := by
  have hb := emodBounds k M hM
  have hMz : (0:ℤ) < (M:ℤ) := by exact_mod_cast hM
  by_contra hgt
  push_neg at hgt
  have key : 2 * (k % (M:ℤ)) = (M:ℤ) * (q - 2 * (k / (M:ℤ))) := by
    rw [Int.emod_def]
    linear_combination h2k
  have h1t : 1 < q - 2 * (k / (M:ℤ)) := by
    have hm1 : (M:ℤ) * 1 < (M:ℤ) * (q - 2 * (k / (M:ℤ))) := by
      rw [mul_one, ← key]; omega
    exact lt_of_mul_lt_mul_left hm1 (le_of_lt hMz)
  have h2t : q - 2 * (k / (M:ℤ)) < 2 := by
    have hm2 : (M:ℤ) * (q - 2 * (k / (M:ℤ))) < (M:ℤ) * 2 := by
      rw [← key]; omega
    exact lt_of_mul_lt_mul_left hm2 (le_of_lt hMz)
  omega

theorem cnRestrict_fold_formula (N M : ℕ) (k : ℤ) :
    (2 * (k % (M:ℤ)) > (M:ℤ) →
      (cnRestrictIrrep N M k).1 = !![1, 0; 0, -1] ∧
      (cnRestrictIrrep N M k).2.head? = some ((M:ℤ) - k % (M:ℤ))) ∧
    (2 * (k % (M:ℤ)) ≤ (M:ℤ) →
      (cnRestrictIrrep N M k).1 = 1 ∧
      (cnRestrictIrrep N M k).2.head? = some (k % (M:ℤ))) := by
  constructor
  · intro hf
    rw [cnRestrictIrrep, if_pos hf]
    exact ⟨rfl, rfl⟩
  · intro hnf
    rw [cnRestrictIrrep, if_neg (by omega)]
    exact ⟨rfl, rfl⟩

theorem cnRestrict_dim2 (N M : ℕ) (k s : ℤ) (hM : 0 < M) (hN : 0 < N)
    (hdvd : (M:ℤ) ∣ (N:ℤ)) (hsz : cnSize N k = 2) :
    cnIrrep2 N k (cnParentMap N M s) =
      (cnRestrictIrrep N M k).1 * cnBlockDiag M (cnRestrictIrrep N M k).2 s *
        ((cnRestrictIrrep N M k).1)⁻¹ := by
  have hb := emodBounds k M hM
  have hL : cnIrrep2 N k (cnParentMap N M s) = cnIrrep2 M (k % (M:ℤ)) s := by
    rw [cn_incl_irrep2 N M k s hM hN hdvd]
    exact cnIrrep2_mod M k s hM
  by_cases hfold : 2 * (k % (M:ℤ)) > (M:ℤ)
  · have hsz2 : cnSize M ((M:ℤ) - k % (M:ℤ)) = 2 := by
      apply cnSize_two (by omega)
      rintro ⟨he, hv⟩
      omega
    have hR : cnRestrictIrrep N M k =
        (!![1, 0; 0, -1], [(M:ℤ) - k % (M:ℤ)]) := by
      rw [cnRestrictIrrep, if_pos hfold, hsz2, hsz]
      norm_num
    have hB : (cnRestrictIrrep N M k).1 = !![1, 0; 0, -1] := by rw [hR]
    have hids : (cnRestrictIrrep N M k).2 = [(M:ℤ) - k % (M:ℤ)] := by rw [hR]
    have hBD : cnBlockDiag M [(M:ℤ) - k % (M:ℤ)] s =
        cnIrrep2 M ((M:ℤ) - k % (M:ℤ)) s := rfl
    have hBinv : (!![1, 0; 0, -1] : Matrix (Fin 2) (Fin 2) ℝ)⁻¹ =
        !![1, 0; 0, -1] := by
      apply Matrix.inv_eq_right_inv
      rw [Matrix.mul_fin_two]
      norm_num
      exact Matrix.one_fin_two.symm
    have hfl := cnIrrep2_fold M ((M:ℤ) - k % (M:ℤ)) s hM
    rw [show (M:ℤ) - ((M:ℤ) - k % (M:ℤ)) = k % (M:ℤ) from by ring] at hfl
    rw [hL, hB, hids, hBD, hBinv, ← chi_one, hfl]
  · push_neg at hfold
    rcases cnSize_one_or_two M (k % (M:ℤ)) with hsz1 | hsz2
    · have hR : cnRestrictIrrep N M k = (1, [k % (M:ℤ), k % (M:ℤ)]) := by
        rw [cnRestrictIrrep, if_neg (by omega), hsz1, hsz]
        norm_num
      have hB : (cnRestrictIrrep N M k).1 = 1 := by rw [hR]
      have hids : (cnRestrictIrrep N M k).2 = [k % (M:ℤ), k % (M:ℤ)] := by
        rw [hR]
      have hBD : cnBlockDiag M [k % (M:ℤ), k % (M:ℤ)] s =
          !![cnIrrep1 M (k % (M:ℤ)) s 0 0, 0;
             0, cnIrrep1 M (k % (M:ℤ)) s 0 0] := rfl
      rw [hL, hB, hids, hBD, inv_one, one_mul, mul_one]
      rcases cnSize_one_cases hsz1 with h0 | ⟨he, hv⟩
      · rw [h0]
        exact cnIrrep2_diag_zero M s
      · exact cnIrrep2_diag_nyq M _ s hM (by omega)
    · have hR : cnRestrictIrrep N M k = (1, [k % (M:ℤ)]) := by
        rw [cnRestrictIrrep, if_neg (by omega), hsz2, hsz]
        norm_num
      have hB : (cnRestrictIrrep N M k).1 = 1 := by rw [hR]
      have hids : (cnRestrictIrrep N M k).2 = [k % (M:ℤ)] := by rw [hR]
      have hBD : cnBlockDiag M [k % (M:ℤ)] s = cnIrrep2 M (k % (M:ℤ)) s := rfl
      rw [hL, hB, hids, hBD, inv_one, one_mul, mul_one]

theorem cnRestrict_dim1 (N M : ℕ) (k s : ℤ) (hM : 0 < M) (hN : 0 < N)
    (hdvd : (M:ℤ) ∣ (N:ℤ)) (hsz : cnSize N k = 1) :
    cnIrrep1 N k (cnParentMap N M s) = cnIrrep1 M (k % (M:ℤ)) s ∧
    cnRestrictIrrep N M k = (1, [k % (M:ℤ)]) := by
  obtain ⟨q, hq⟩ := hdvd
  have hq0 : q ≠ 0 := by
    rintro rfl
    rw [mul_zero] at hq
    omega
  have hnf : ¬(2 * (k % (M:ℤ)) > (M:ℤ)) := by
    rcases cnSize_one_cases hsz with h0 | ⟨he, hv⟩
    · rw [h0, Int.zero_emod]
      omega
    · have h2k : 2 * k = (M:ℤ) * q := by rw [← hq]; omega
      have := nyq_no_fold hM h2k
      omega
  constructor
  · have hpm : cnParentMap N M s = s * q := cnParentMap_mul N M q s hM hq
    rw [cnIrrep1, cnIrrep1, hpm]
    have harg : (k:ℝ) * cnRadians N (s * q) =
        ((k % (M:ℤ) : ℤ):ℝ) * cnRadians M s + ((k / (M:ℤ) * s : ℤ):ℝ) * (2*π) := by
      rw [cnRadians, cnRadians]
      have hk : (k:ℝ) = ((M:ℕ):ℝ) * ((k / (M:ℤ) : ℤ):ℝ) + ((k % (M:ℤ) : ℤ):ℝ) := by
        exact_mod_cast congrArg (Int.cast : ℤ → ℝ) (Int.ediv_add_emod k (M:ℤ)).symm
      have hNr : ((N:ℕ):ℝ) = ((M:ℕ):ℝ) * (q:ℝ) := by exact_mod_cast hq
      have hMr : ((M:ℕ):ℝ) ≠ 0 := by exact_mod_cast hM.ne'
      have hqr : (q:ℝ) ≠ 0 := by exact_mod_cast hq0
      rw [hNr, hk]
      push_cast
      field_simp
      ring
    rw [harg, Real.cos_add_int_mul_two_pi]
  · rw [cnRestrictIrrep, if_neg hnf, hsz]
    have hlt : ¬(cnSize M (k % (M:ℤ)) < 1) := by
      rcases cnSize_one_or_two M (k % (M:ℤ)) with h | h <;> omega
    rw [if_neg hlt]
    simp

theorem psiR_chi_inv (a : ℝ) (c : ℕ) (hc : c < 2) :
    (psiR a * chi c)⁻¹ = chi c * psiR (-a) := by
  apply Matrix.inv_eq_right_inv
  interval_cases c
  · rw [chi_zero, mul_one, one_mul, psiR_mul, add_neg_cancel, psiR_zero]
  · rw [mul_assoc (psiR a) (chi 1), ← mul_assoc (chi 1) (chi 1), chi_one_sq,
      one_mul, psiR_mul, add_neg_cancel, psiR_zero]

theorem chi_sandwich (x : ℝ) (f : ℕ) (hf : f < 2) :
    chi 1 * (psiR x * chi f) * chi 1 = psiR (-x) * chi f := by
  interval_cases f
  · rw [chi_zero, mul_one, mul_one, chi_psiR_chi]
  · rw [show chi 1 * (psiR x * chi 1) * chi 1 =
      (chi 1 * psiR x * chi 1) * (chi 1 * chi 1) * chi 1 from by
        rw [chi_one_sq]; noncomm_ring]
    rw [chi_psiR_chi, chi_one_sq, mul_one]

theorem chi1_psiR_assoc (x : ℝ) (y : Matrix (Fin 2) (Fin 2) ℝ) :
    chi 1 * (psiR x * y) = psiR (-x) * (chi 1 * y) := by
  rw [← mul_assoc, chi_one_psiR, mul_assoc]

theorem chi1_chi1_assoc (y : Matrix (Fin 2) (Fin 2) ℝ) :
    chi 1 * (chi 1 * y) = y := by
  rw [← mul_assoc, chi_one_sq, one_mul]

theorem psiR_psiR_assoc (a b : ℝ) (y : Matrix (Fin 2) (Fin 2) ℝ) :
    psiR a * (psiR b * y) = psiR (a + b) * y := by
  rw [← mul_assoc, psiR_mul]

theorem cob_conj (a x : ℝ) (c f : ℕ) (hc : c < 2) (hf : f < 2) :
    (psiR a * chi c) * (psiR x * chi f) * (psiR a * chi c)⁻¹ =
      psiR ((if c = 0 then x else -x) + (if f = 0 then 0 else 2*a)) * chi f := by
  rw [psiR_chi_inv a c hc]
  interval_cases c <;> interval_cases f <;> norm_num <;>
    simp only [chi_zero, mul_one, one_mul, mul_assoc, chi1_psiR_assoc,
      chi_one_psiR, chi1_chi1_assoc, psiR_psiR_assoc, psiR_mul, chi_one_sq]
  · exact psiR_congr 0 (by push_cast; ring)
  · congr 1
    exact psiR_congr 0 (by push_cast; ring)
  · exact psiR_congr 0 (by push_cast; ring)
  · congr 1
    exact psiR_congr 0 (by push_cast; ring)

theorem diag_psiR_chi {a : ℝ} (f : ℕ) (hf : f < 2) (h : Real.sin a = 0) :
    (!![Real.cos a, 0; 0, Real.cos a * (if f ≠ 0 then -1 else 1)] :
      Matrix (Fin 2) (Fin 2) ℝ) = psiR a * chi f := by
  interval_cases f
  · rw [chi_zero, mul_one, psiR_diag h]
    norm_num
  · rw [chi_one, psiR_diag h, Matrix.mul_fin_two]
    norm_num

theorem mat1_one : (1 : Matrix (Fin 1) (Fin 1) ℝ) = !![1] := by
  ext i j
  fin_cases i
  fin_cases j
  simp [Matrix.one_apply]

theorem o2Restrict_adj_dim2 (axis θ : ℝ) (k : ℤ) (fl : ℕ) (hfl : fl < 2)
    (hk : k ≠ 0) :
    o2Irrep2 k (adjointMap (o2ElementR (0, axis / 2)) (fl, θ)) =
      (o2RestrictAdj axis 1 k).1 * o2Irrep2 k (fl, θ) *
        ((o2RestrictAdj axis 1 k).1)⁻¹ ∧
    (o2RestrictAdj axis 1 k).2 = [(1, k)] := by
  refine ⟨?_, rfl⟩
  have hsize : o2Size 1 k = 2 := by rw [o2Size, if_neg hk]
  have hB : (o2RestrictAdj axis 1 k).1 = psiR ((k:ℝ) * (0.5 * axis)) * chi 0 := by
    rw [o2RestrictAdj, if_pos hsize, chi_zero, mul_one]
    rfl
  have ha : o2ElementR (0, axis / 2) = ((0:ℕ), mod2pi (axis / 2)) := rfl
  rw [hB, ha]
  interval_cases fl
  · rw [adjointMap_rot0]
    show psiR ((k:ℝ) * mod2pi θ) * chi 0 =
      (psiR ((k:ℝ) * (0.5 * axis)) * chi 0) * (psiR ((k:ℝ) * θ) * chi 0) *
        (psiR ((k:ℝ) * (0.5 * axis)) * chi 0)⁻¹
    rw [cob_conj _ _ 0 0 (by norm_num) (by norm_num)]
    norm_num [psiR_k_mod2pi]
  · rw [adjointMap_rot1]
    show psiR ((k:ℝ) * mod2pi (2 * mod2pi (axis / 2) + θ)) * chi 1 =
      (psiR ((k:ℝ) * (0.5 * axis)) * chi 0) * (psiR ((k:ℝ) * θ) * chi 1) *
        (psiR ((k:ℝ) * (0.5 * axis)) * chi 0)⁻¹
    rw [cob_conj _ _ 0 1 (by norm_num) (by norm_num)]
    norm_num
    congr 1
    rw [psiR_k_mod2pi]
    apply psiR_congr (-(2 * k * ⌊(axis / 2) / (2*π)⌋))
    rw [mod2pi]
    push_cast
    ring

theorem o2Restrict_adj_dim1 (axis θ : ℝ) (fl : ℕ) (hfl : fl < 2) :
    o2IrrepFlip (adjointMap (o2ElementR (0, axis / 2)) (fl, θ)) =
      o2IrrepFlip (fl, θ) ∧
    o2RestrictAdj axis 1 0 = (1, [(1, 0)]) := by
  constructor
  · have ha : o2ElementR (0, axis / 2) = ((0:ℕ), mod2pi (axis / 2)) := rfl
    rw [ha]
    interval_cases fl
    · rw [adjointMap_rot0]
      rfl
    · rw [adjointMap_rot1]
      rfl
  · rw [o2RestrictAdj]
    norm_num [o2Size]

theorem o2Restrict_so2_dim2 (s : ℝ) (k : ℤ) (hk : k ≠ 0) :
    o2Irrep2 k (so2ToO2 s) =
      (o2RestrictSo2 1 k).1 * so2Irrep k s * ((o2RestrictSo2 1 k).1)⁻¹ ∧
    (o2RestrictSo2 1 k).2 = [k] := by
  refine ⟨?_, rfl⟩
  show psiR ((k:ℝ) * mod2pi s) * chi 0 =
    (1 : Matrix (Fin 2) (Fin 2) ℝ) * so2Irrep k s *
      ((1 : Matrix (Fin 2) (Fin 2) ℝ))⁻¹
  rw [chi_zero, mul_one, inv_one, one_mul, mul_one, psiR_k_mod2pi]
  rfl

theorem o2Restrict_so2_dim1 (s : ℝ) :
    o2IrrepFlip (so2ToO2 s) = 1 ∧ o2RestrictSo2 1 0 = (1, [0]) := by
  refine ⟨?_, rfl⟩
  show (!![if (0:ℕ) ≠ 0 then -1 else 1] : Matrix (Fin 1) (Fin 1) ℝ) = 1
  norm_num
  exact mat1_one.symm

theorem o2Restrict_flip_dim2 (axis : ℝ) (k s : ℤ) (hk : k ≠ 0)
    (hs : s = 0 ∨ s = 1) :
    o2Irrep2 k (flipToO2 axis s) =
      (o2RestrictFlip axis 1 k).1 * cnBlockDiag 2 (o2RestrictFlip axis 1 k).2 s *
        ((o2RestrictFlip axis 1 k).1)⁻¹ := by
  have hsize : o2Size 1 k = 2 := by rw [o2Size, if_neg hk]
  have hR : o2RestrictFlip axis 1 k = (psi (0.5 * axis) k, [0, 1]) := by
    rw [o2RestrictFlip, if_pos (by rw [hsize]; omega)]
  have hB : (o2RestrictFlip axis 1 k).1 = psiR ((k:ℝ) * (0.5 * axis)) * chi 0 := by
    rw [hR, chi_zero, mul_one]
    rfl
  have hids : (o2RestrictFlip axis 1 k).2 = [0, 1] := by rw [hR]
  rw [hB, hids]
  rcases hs with rfl | rfl
  · have hD : cnBlockDiag 2 [0, 1] 0 = psiR 0 * chi 0 := by
      show (!![cnIrrep1 2 0 0 0 0, 0; 0, cnIrrep1 2 1 0 0 0] :
        Matrix (Fin 2) (Fin 2) ℝ) = psiR 0 * chi 0
      rw [cnIrrep1_val, cnIrrep1_val, chi_zero, mul_one, psiR_zero]
      norm_num [cnRadians]
      exact Matrix.one_fin_two.symm
    rw [hD, cob_conj _ _ 0 0 (by norm_num) (by norm_num)]
    show psiR ((k:ℝ) * 0) * chi 0 = _
    norm_num [chi_zero]
  · have hD : cnBlockDiag 2 [0, 1] 1 = psiR 0 * chi 1 := by
      show (!![cnIrrep1 2 0 1 0 0, 0; 0, cnIrrep1 2 1 1 0 0] :
        Matrix (Fin 2) (Fin 2) ℝ) = psiR 0 * chi 1
      rw [cnIrrep1_val, cnIrrep1_val, psiR_zero, one_mul, chi_one]
      norm_num [cnRadians]
    rw [hD, cob_conj _ _ 0 1 (by norm_num) (by norm_num)]
    show psiR ((k:ℝ) * mod2pi axis) * chi 1 = _
    norm_num
    congr 1
    rw [psiR_k_mod2pi]
    apply psiR_congr 0
    push_cast
    ring

theorem o2Restrict_flip_dim1 (axis : ℝ) (s : ℤ) (hs : s = 0 ∨ s = 1) :
    o2IrrepFlip (flipToO2 axis s) = cnIrrep1 2 1 s ∧
    o2RestrictFlip axis 1 0 = (1, [1]) := by
  constructor
  · rcases hs with rfl | rfl
    · show (!![if (0:ℕ) ≠ 0 then -1 else 1] : Matrix (Fin 1) (Fin 1) ℝ) =
        !![Real.cos (((1:ℤ):ℝ) * cnRadians 2 0)]
      norm_num [cnRadians]
    · show (!![if (1:ℕ) ≠ 0 then -1 else 1] : Matrix (Fin 1) (Fin 1) ℝ) =
        !![Real.cos (((1:ℤ):ℝ) * cnRadians 2 1)]
      norm_num [cnRadians]
  · rw [o2RestrictFlip]
    norm_num [o2Size]

theorem o2Restrict_cyclic_dim2 (M : ℕ) (k s : ℤ) (hM : 0 < M) (hk : k ≠ 0) :
    o2Irrep2 k (cmToO2 M s) =
      (o2RestrictCyclic M 1 k).1 * cnBlockDiag M (o2RestrictCyclic M 1 k).2 s *
        ((o2RestrictCyclic M 1 k).1)⁻¹ := by
  have hb := emodBounds k M hM
  have hsize : o2Size 1 k = 2 := by rw [o2Size, if_neg hk]
  have hL : o2Irrep2 k (cmToO2 M s) = cnIrrep2 M (k % (M:ℤ)) s := by
    show psiR ((k:ℝ) * mod2pi (cnRadians M s)) * chi 0 = _
    rw [chi_zero, mul_one, psiR_k_mod2pi, ← cnIrrep2_psiR]
    exact cnIrrep2_mod M k s hM
  by_cases hfold : 2 * (k % (M:ℤ)) > (M:ℤ)
  · have hsz2 : cnSize M ((M:ℤ) - k % (M:ℤ)) = 2 := by
      apply cnSize_two (by omega)
      rintro ⟨he, hv⟩
      omega
    have hR : o2RestrictCyclic M 1 k = (chi 1, [(M:ℤ) - k % (M:ℤ)]) := by
      rw [o2RestrictCyclic, if_pos hfold, hsz2, hsize]
      norm_num
    have hB1 : (o2RestrictCyclic M 1 k).1 = chi 1 := by rw [hR]
    have hids : (o2RestrictCyclic M 1 k).2 = [(M:ℤ) - k % (M:ℤ)] := by rw [hR]
    have hchiinv : (chi 1)⁻¹ = chi 1 := Matrix.inv_eq_right_inv chi_one_sq
    have hBD : cnBlockDiag M [(M:ℤ) - k % (M:ℤ)] s =
        cnIrrep2 M ((M:ℤ) - k % (M:ℤ)) s := rfl
    have hfl := cnIrrep2_fold M ((M:ℤ) - k % (M:ℤ)) s hM
    rw [show (M:ℤ) - ((M:ℤ) - k % (M:ℤ)) = k % (M:ℤ) from by ring] at hfl
    rw [hL, hB1, hids, hBD, hchiinv, hfl]
  · push_neg at hfold
    rcases cnSize_one_or_two M (k % (M:ℤ)) with hsz1 | hsz2
    · have hR : o2RestrictCyclic M 1 k = (1, [k % (M:ℤ), k % (M:ℤ)]) := by
        rw [o2RestrictCyclic, if_neg (by omega), hsz1, hsize]
        norm_num
      have hB1 : (o2RestrictCyclic M 1 k).1 = 1 := by rw [hR]
      have hids : (o2RestrictCyclic M 1 k).2 = [k % (M:ℤ), k % (M:ℤ)] := by
        rw [hR]
      have hBD : cnBlockDiag M [k % (M:ℤ), k % (M:ℤ)] s =
          !![cnIrrep1 M (k % (M:ℤ)) s 0 0, 0;
             0, cnIrrep1 M (k % (M:ℤ)) s 0 0] := rfl
      rw [hL, hB1, hids, hBD, inv_one, one_mul, mul_one]
      rcases cnSize_one_cases hsz1 with h0 | ⟨he, hv⟩
      · rw [h0]
        exact cnIrrep2_diag_zero M s
      · exact cnIrrep2_diag_nyq M _ s hM (by omega)
    · have hR : o2RestrictCyclic M 1 k = (1, [k % (M:ℤ)]) := by
        rw [o2RestrictCyclic, if_neg (by omega), hsz2, hsize]
        norm_num
      have hB1 : (o2RestrictCyclic M 1 k).1 = 1 := by rw [hR]
      have hids : (o2RestrictCyclic M 1 k).2 = [k % (M:ℤ)] := by rw [hR]
      have hBD : cnBlockDiag M [k % (M:ℤ)] s = cnIrrep2 M (k % (M:ℤ)) s := rfl
      rw [hL, hB1, hids, hBD, inv_one, one_mul, mul_one]

theorem o2Restrict_cyclic_dim1 (M : ℕ) (s : ℤ) (hM : 0 < M) :
    o2IrrepFlip (cmToO2 M s) = cnIrrep1 M 0 s ∧
    o2RestrictCyclic M 1 0 = (1, [0]) := by
  constructor
  · show (!![if (0:ℕ) ≠ 0 then -1 else 1] : Matrix (Fin 1) (Fin 1) ℝ) =
      !![Real.cos (((0:ℤ):ℝ) * cnRadians M s)]
    norm_num
  · rw [o2RestrictCyclic]
    rw [if_neg (by rw [Int.zero_emod]; omega)]
    rw [Int.zero_emod, cnSize_zero]
    norm_num [o2Size]

theorem o2Restrict_dihedral_dim2 (axis : ℝ) (M : ℕ) (k r : ℤ) (fl : ℕ)
    (hM : 0 < M) (hfl : fl < 2) (hk : k ≠ 0) :
    o2Irrep2 k (dnToO2 axis M (fl, r)) =
      (o2RestrictDihedral axis M 1 k).1 *
        dnBlockDiag M (o2RestrictDihedral axis M 1 k).2 (fl, r) *
        ((o2RestrictDihedral axis M 1 k).1)⁻¹ := by
  have hb := emodBounds k M hM
  have hsize : o2Size 1 k = 2 := by rw [o2Size, if_neg hk]
  have hMr : ((M:ℕ):ℝ) ≠ 0 := by exact_mod_cast hM.ne'
  have hme : ((k % (M:ℤ) : ℤ):ℝ) = (k:ℝ) - ((M:ℕ):ℝ) * ((k / (M:ℤ) : ℤ):ℝ) := by
    exact_mod_cast congrArg (Int.cast : ℤ → ℝ) (Int.emod_def k (M:ℤ))
  have hL : o2Irrep2 k (dnToO2 axis M (fl, r)) =
      psiR ((k:ℝ) * (cnRadians M r + (fl:ℝ) * axis)) * chi fl := by
    show psiR ((k:ℝ) * mod2pi (cnRadians M r + (fl:ℝ) * axis)) * chi fl = _
    rw [psiR_k_mod2pi]
  by_cases hfold : 2 * (k % (M:ℤ)) > (M:ℤ)
  · have hdn2 : dnSize M ((M:ℤ) - k % (M:ℤ)) = 2 := by
      rw [dnSize]
      apply cnSize_two (by omega)
      rintro ⟨he, hv⟩
      omega
    have hR : o2RestrictDihedral axis M 1 k =
        (psi (0.5 * axis) k * !![1, 0; 0, -1], [(1, (M:ℤ) - k % (M:ℤ))]) := by
      rw [o2RestrictDihedral, if_pos hfold, hdn2, hsize]
      norm_num
    have hB : (o2RestrictDihedral axis M 1 k).1 =
        psiR ((k:ℝ) * (0.5 * axis)) * chi 1 := by
      rw [hR, chi_one]
      rfl
    have hids : (o2RestrictDihedral axis M 1 k).2 =
        [(1, (M:ℤ) - k % (M:ℤ))] := by rw [hR]
    have hBD : dnBlockDiag M [(1, (M:ℤ) - k % (M:ℤ))] (fl, r) =
        psiR ((((M:ℤ) - k % (M:ℤ) : ℤ):ℝ) * cnRadians M r) * chi fl := rfl
    rw [hL, hB, hids, hBD, cob_conj _ _ 1 fl (by norm_num) hfl]
    congr 1
    interval_cases fl
    · norm_num
      apply psiR_congr ((k / (M:ℤ) + 1) * r)
      simp only [cnRadians]
      push_cast
      rw [hme]
      field_simp
      ring
    · norm_num
      apply psiR_congr ((k / (M:ℤ) + 1) * r)
      simp only [cnRadians]
      push_cast
      rw [hme]
      field_simp
      ring
  · push_neg at hfold
    rcases cnSize_one_or_two M (k % (M:ℤ)) with hsz1 | hsz2
    · have hR : o2RestrictDihedral axis M 1 k =
          (psi (0.5 * axis) k * 1, [(0, k % (M:ℤ)), (1, k % (M:ℤ))]) := by
        rw [o2RestrictDihedral, if_neg (by omega), dnSize, hsz1, hsize]
        norm_num
      have hB : (o2RestrictDihedral axis M 1 k).1 =
          psiR ((k:ℝ) * (0.5 * axis)) * chi 0 := by
        rw [hR, chi_zero]
        rfl
      have hids : (o2RestrictDihedral axis M 1 k).2 =
          [(0, k % (M:ℤ)), (1, k % (M:ℤ))] := by rw [hR]
      have hBD : dnBlockDiag M [(0, k % (M:ℤ)), (1, k % (M:ℤ))] (fl, r) =
          !![dnIrrep1 M (0, k % (M:ℤ)) (fl, r), 0;
             0, dnIrrep1 M (1, k % (M:ℤ)) (fl, r)] := rfl
      have h0v : dnIrrep1 M (0, k % (M:ℤ)) (fl, r) =
          Real.cos (((k % (M:ℤ) : ℤ):ℝ) * cnRadians M r) := by
        rw [dnIrrep1]
        norm_num
      have h1v : dnIrrep1 M (1, k % (M:ℤ)) (fl, r) =
          Real.cos (((k % (M:ℤ) : ℤ):ℝ) * cnRadians M r) *
            (if fl ≠ 0 then -1 else 1) := by
        rw [dnIrrep1]
        interval_cases fl <;> norm_num
      have hsin : Real.sin (((k % (M:ℤ) : ℤ):ℝ) * cnRadians M r) = 0 := by
        rcases cnSize_one_cases hsz1 with hz | ⟨he, hv⟩
        · rw [hz]
          norm_num
        · have hhalf : (0:ℝ) < ((M/2 : ℕ):ℝ) := by
            have : 0 < M/2 := by omega
            exact_mod_cast this
          have h2 : ((M/2 : ℕ):ℝ) * 2 = ((M:ℕ):ℝ) := by
            exact_mod_cast congrArg (Nat.cast : ℕ → ℝ)
              (Nat.div_mul_cancel (Nat.dvd_of_mod_eq_zero he))
          have hvr : ((k % (M:ℤ) : ℤ):ℝ) = ((M/2 : ℕ):ℝ) := by
            have := congrArg (Int.cast : ℤ → ℝ) hv
            rwa [Int.cast_natCast] at this
          have hne : ((M/2 : ℕ):ℝ) ≠ 0 := ne_of_gt hhalf
          have hang : ((k % (M:ℤ) : ℤ):ℝ) * cnRadians M r = (r:ℝ) * π := by
            rw [hvr, cnRadians, ← h2]
            field_simp
            ring
          rw [hang]
          exact Real.sin_int_mul_pi r
      have hdiag : dnBlockDiag M [(0, k % (M:ℤ)), (1, k % (M:ℤ))] (fl, r) =
          psiR (((k % (M:ℤ) : ℤ):ℝ) * cnRadians M r) * chi fl := by
        rw [hBD, h0v, h1v]
        exact diag_psiR_chi fl hfl hsin
      rw [hL, hB, hids, hdiag, cob_conj _ _ 0 fl (by norm_num) hfl]
      congr 1
      interval_cases fl
      · norm_num
        apply psiR_congr ((k / (M:ℤ)) * r)
        simp only [cnRadians]
        push_cast
        rw [hme]
        field_simp
        ring
      · norm_num
        apply psiR_congr ((k / (M:ℤ)) * r)
        simp only [cnRadians]
        push_cast
        rw [hme]
        field_simp
        ring
    · have hR : o2RestrictDihedral axis M 1 k =
          (psi (0.5 * axis) k * 1, [(1, k % (M:ℤ))]) := by
        rw [o2RestrictDihedral, if_neg (by omega), dnSize, hsz2, hsize]
        norm_num
      have hB : (o2RestrictDihedral axis M 1 k).1 =
          psiR ((k:ℝ) * (0.5 * axis)) * chi 0 := by
        rw [hR, chi_zero]
        rfl
      have hids : (o2RestrictDihedral axis M 1 k).2 = [(1, k % (M:ℤ))] := by
        rw [hR]
      have hBD : dnBlockDiag M [(1, k % (M:ℤ))] (fl, r) =
          psiR (((k % (M:ℤ) : ℤ):ℝ) * cnRadians M r) * chi fl := rfl
      rw [hL, hB, hids, hBD, cob_conj _ _ 0 fl (by norm_num) hfl]
      congr 1
      interval_cases fl
      · norm_num
        apply psiR_congr ((k / (M:ℤ)) * r)
        simp only [cnRadians]
        push_cast
        rw [hme]
        field_simp
        ring
      · norm_num
        apply psiR_congr ((k / (M:ℤ)) * r)
        simp only [cnRadians]
        push_cast
        rw [hme]
        field_simp
        ring

theorem o2Restrict_dihedral_dim1 (axis : ℝ) (M : ℕ) (r : ℤ) (fl : ℕ)
    (hM : 0 < M) (hfl : fl < 2) :
    o2IrrepFlip (dnToO2 axis M (fl, r)) = !![dnIrrep1 M (1, 0) (fl, r)] ∧
    o2RestrictDihedral axis M 1 0 = (1, [(1, 0)]) := by
  constructor
  · show (!![if fl ≠ 0 then -1 else 1] : Matrix (Fin 1) (Fin 1) ℝ) = _
    rw [dnIrrep1]
    interval_cases fl <;> norm_num
  · rw [o2RestrictDihedral]
    rw [if_neg (by rw [Int.zero_emod]; omega)]
    rw [Int.zero_emod, dnSize, cnSize_zero]
    norm_num [o2Size]

/-- C3: `_restrict_irrep` is correct on both groups.  For `CyclicGroup(N)`
restricted to `C_M` (`M` dividing `N`): the returned frequency is
`k' = k % M`, folded to `M - k'` exactly when `k' > M/2`, in which case
(and only then) the change of basis is `[[1, 0], [0, -1]]` instead of the
identity (conjunct 1); and for every parent irrep (2-dimensional,
conjunct 2; 1-dimensional, conjunct 3) and every subgroup element `s` the
parent irrep at `inclusion(s)` equals `change_of_basis · blockdiag(listed
subgroup irreps at s) · change_of_basis⁻¹`.  For `O2._restrict_irrep` the
same conjugation identity holds for every valid subgroup id — the adjoint
`(θ, -1)` subgroup (conjuncts 4-5), `SO(2)` (conjuncts 6-7), the flip
`C_2` subgroup (conjuncts 8-9), the cyclic subgroup `C_M` (conjuncts
10-11) and the dihedral subgroup `D_M` (conjuncts 12-13) — for the
2-dimensional parent irreps `(1, k)`, `k ≠ 0`, and the 1-dimensional flip
parent irrep `(1, 0)` alike, with the subgroup elements mapped through
the corresponding inclusion maps. -/
theorem c3_restrict_irrep :
    (∀ (N M : ℕ) (k : ℤ),
      (2 * (k % (M:ℤ)) > (M:ℤ) →
        (cnRestrictIrrep N M k).1 = !![1, 0; 0, -1] ∧
        (cnRestrictIrrep N M k).2.head? = some ((M:ℤ) - k % (M:ℤ))) ∧
      (2 * (k % (M:ℤ)) ≤ (M:ℤ) →
        (cnRestrictIrrep N M k).1 = 1 ∧
        (cnRestrictIrrep N M k).2.head? = some (k % (M:ℤ)))) ∧
    (∀ (N M : ℕ) (k s : ℤ), 0 < M → 0 < N → (M:ℤ) ∣ (N:ℤ) →
      cnSize N k = 2 →
      cnIrrep2 N k (cnParentMap N M s) =
        (cnRestrictIrrep N M k).1 * cnBlockDiag M (cnRestrictIrrep N M k).2 s *
          ((cnRestrictIrrep N M k).1)⁻¹) ∧
    (∀ (N M : ℕ) (k s : ℤ), 0 < M → 0 < N → (M:ℤ) ∣ (N:ℤ) →
      cnSize N k = 1 →
      cnIrrep1 N k (cnParentMap N M s) = cnIrrep1 M (k % (M:ℤ)) s ∧
      cnRestrictIrrep N M k = (1, [k % (M:ℤ)])) ∧
    (∀ (axis θ : ℝ) (k : ℤ) (fl : ℕ), fl < 2 → k ≠ 0 →
      o2Irrep2 k (adjointMap (o2ElementR (0, axis / 2)) (fl, θ)) =
        (o2RestrictAdj axis 1 k).1 * o2Irrep2 k (fl, θ) *
          ((o2RestrictAdj axis 1 k).1)⁻¹ ∧
      (o2RestrictAdj axis 1 k).2 = [(1, k)]) ∧
    (∀ (axis θ : ℝ) (fl : ℕ), fl < 2 →
      o2IrrepFlip (adjointMap (o2ElementR (0, axis / 2)) (fl, θ)) =
        o2IrrepFlip (fl, θ) ∧
      o2RestrictAdj axis 1 0 = (1, [(1, 0)])) ∧
    (∀ (s : ℝ) (k : ℤ), k ≠ 0 →
      o2Irrep2 k (so2ToO2 s) =
        (o2RestrictSo2 1 k).1 * so2Irrep k s * ((o2RestrictSo2 1 k).1)⁻¹ ∧
      (o2RestrictSo2 1 k).2 = [k]) ∧
    (∀ s : ℝ,
      o2IrrepFlip (so2ToO2 s) = 1 ∧ o2RestrictSo2 1 0 = (1, [0])) ∧
    (∀ (axis : ℝ) (k s : ℤ), k ≠ 0 → s = 0 ∨ s = 1 →
      o2Irrep2 k (flipToO2 axis s) =
        (o2RestrictFlip axis 1 k).1 *
          cnBlockDiag 2 (o2RestrictFlip axis 1 k).2 s *
          ((o2RestrictFlip axis 1 k).1)⁻¹) ∧
    (∀ (axis : ℝ) (s : ℤ), s = 0 ∨ s = 1 →
      o2IrrepFlip (flipToO2 axis s) = cnIrrep1 2 1 s ∧
      o2RestrictFlip axis 1 0 = (1, [1])) ∧
    (∀ (M : ℕ) (k s : ℤ), 0 < M → k ≠ 0 →
      o2Irrep2 k (cmToO2 M s) =
        (o2RestrictCyclic M 1 k).1 *
          cnBlockDiag M (o2RestrictCyclic M 1 k).2 s *
          ((o2RestrictCyclic M 1 k).1)⁻¹) ∧
    (∀ (M : ℕ) (s : ℤ), 0 < M →
      o2IrrepFlip (cmToO2 M s) = cnIrrep1 M 0 s ∧
      o2RestrictCyclic M 1 0 = (1, [0])) ∧
    (∀ (axis : ℝ) (M : ℕ) (k r : ℤ) (fl : ℕ), 0 < M → fl < 2 → k ≠ 0 →
      o2Irrep2 k (dnToO2 axis M (fl, r)) =
        (o2RestrictDihedral axis M 1 k).1 *
          dnBlockDiag M (o2RestrictDihedral axis M 1 k).2 (fl, r) *
          ((o2RestrictDihedral axis M 1 k).1)⁻¹) ∧
    (∀ (axis : ℝ) (M : ℕ) (r : ℤ) (fl : ℕ), 0 < M → fl < 2 →
      o2IrrepFlip (dnToO2 axis M (fl, r)) = !![dnIrrep1 M (1, 0) (fl, r)] ∧
      o2RestrictDihedral axis M 1 0 = (1, [(1, 0)])) :=
  ⟨cnRestrict_fold_formula, cnRestrict_dim2, cnRestrict_dim1,
   fun axis θ k fl hfl hk => o2Restrict_adj_dim2 axis θ k fl hfl hk,
   fun axis θ fl hfl => o2Restrict_adj_dim1 axis θ fl hfl,
   fun s k hk => o2Restrict_so2_dim2 s k hk,
   o2Restrict_so2_dim1,
   fun axis k s hk hs => o2Restrict_flip_dim2 axis k s hk hs,
   o2Restrict_flip_dim1,
   o2Restrict_cyclic_dim2,
   o2Restrict_cyclic_dim1,
   fun axis M k r fl hM hfl hk => o2Restrict_dihedral_dim2 axis M k r fl hM hfl hk,
   fun axis M r fl hM hfl => o2Restrict_dihedral_dim1 axis M r fl hM hfl⟩

/-- Witness for C3: the `CyclicGroup(4)` 2-dimensional irrep `k = 1`
restricted to `C_2` at the subgroup element `s = 1`, and the `O2`
2-dimensional irrep `k = 2` restricted to the dihedral subgroup
`(0.0, 3)` at the subgroup element `(1, 1)`. -/
theorem c3_witness :
    cnIrrep2 4 1 (cnParentMap 4 2 1) =
      (cnRestrictIrrep 4 2 1).1 * cnBlockDiag 2 (cnRestrictIrrep 4 2 1).2 1 *
        ((cnRestrictIrrep 4 2 1).1)⁻¹ ∧
    o2Irrep2 2 (dnToO2 0 3 (1, 1)) =
      (o2RestrictDihedral 0 3 1 2).1 *
        dnBlockDiag 3 (o2RestrictDihedral 0 3 1 2).2 (1, 1) *
        ((o2RestrictDihedral 0 3 1 2).1)⁻¹ :=
  ⟨c3_restrict_irrep.2.1 4 2 1 1 (by norm_num) (by norm_num) (by norm_num)
     (by decide),
   c3_restrict_irrep.2.2.2.2.2.2.2.2.2.2.2.1 0 3 2 1 1 (by norm_num)
     (by norm_num) (by norm_num)⟩
